import Mathlib

/-!
# tarball-checker: referential integrity of container-image archives

A shallow embedding of `main.go`.  The program scans a tar stream once,
records every (normalized) entry name, captures the bytes of the entries whose
basename is `manifest.json` / `index.json`, and then checks that every file
referenced by the Docker manifest and by the OCI index is an entry of the
archive.

Go strings and byte slices are modelled as lists of characters.  The standard
library functions the program calls (`strings.TrimPrefix`, `strings.SplitN`,
`path.Base`, `path.Clean`, `path.Join`, `json.Unmarshal`) are modelled after
their Go implementations.
-/

namespace TarCheck

/-- A Go string (also used for `[]byte` buffers): a sequence of characters. -/
abbrev Str := List Char

/-! ## Standard library: `strings` -/

/-- `strings.TrimPrefix(s, pre)`: `s` without the leading `pre` when `s` starts
with it, `s` itself otherwise. -/
def TrimPrefix (s pre : Str) : Str :=
  if pre.isPrefixOf s then s.drop pre.length else s

/-- `strings.SplitN(s, sep, n)` for a one-character separator and `n ≥ 0`:
at most `n` pieces, the last one being the unsplit remainder. -/
def SplitN (s : Str) (sep : Char) : Nat → List Str
  | 0 => []
  | 1 => [s]
  | n + 2 =>
    match s.span (fun c => c != sep) with
    | (_, []) => [s]
    | (a, _ :: rest) => a :: SplitN rest sep (n + 1)

/-! ## Standard library: `path` -/

/-- The loop of `path.Base` that strips trailing slashes. -/
def stripTrailingSlashes (p : Str) : Str :=
  (p.reverse.dropWhile (fun c => c == '/')).reverse

/-- The part of `p` after its last `/` (all of `p` when it has none). -/
def afterLastSlash (p : Str) : Str :=
  (p.reverse.takeWhile (fun c => c != '/')).reverse

/-- `path.Base(p)`: the last element of the path. -/
def Base (p : Str) : Str :=
  if p = [] then ['.']
  else
    let q := afterLastSlash (stripTrailingSlashes p)
    if q = [] then ['/'] else q

/-- State of the `lazybuf` of `path.Clean`: the output written so far and the
index `dotdot` below which the output may not be backtracked. -/
structure CleanState where
  out : Str
  dotdot : Nat

/-- Backtracking of `path.Clean` on a `..` element, after the first `out.w--`:
`c` is the character just dropped and `w` the remaining output, reversed.  The
loop `for out.w > dotdot && out.index(out.w) != '/' { out.w-- }` keeps dropping
while the output is longer than `dotdot` and the character last dropped is not
a slash. -/
def backtrack (dotdot : Nat) : Char → Str → Str
  | _, [] => []
  | c, d :: w => if (d :: w).length > dotdot && c != '/' then backtrack dotdot d w else d :: w

/-- The main loop of `path.Clean`; the `Str` argument is the unread part of the
path and the `Nat` bounds the number of iterations (each one reads at least
one character, so the length of the path is enough). -/
def cleanLoop (rooted : Bool) : Nat → Str → CleanState → CleanState
  | 0, _, st => st
  | _ + 1, [], st => st
  | fuel + 1, c :: r, st =>
    if c = '/' then
      -- empty path element
      cleanLoop rooted fuel r st
    else if c = '.' ∧ (r = [] ∨ r.head? = some '/') then
      -- . element
      cleanLoop rooted fuel r st
    else if c = '.' ∧ r.head? = some '.' ∧ (r.tail = [] ∨ r.tail.head? = some '/') then
      -- .. element: remove to last /
      if st.out.length > st.dotdot then
        -- can backtrack
        match st.out.reverse with
        | [] => cleanLoop rooted fuel r.tail st
        | x :: w => cleanLoop rooted fuel r.tail { st with out := (backtrack st.dotdot x w).reverse }
      else if !rooted then
        -- cannot backtrack, but not rooted, so append .. element
        let o := if st.out.length > 0 then st.out ++ ['/'] else st.out
        let o := o ++ ['.', '.']
        cleanLoop rooted fuel r.tail { out := o, dotdot := o.length }
      else
        cleanLoop rooted fuel r.tail st
    else
      -- real path element: add slash if needed, then copy the element
      let o := if (rooted && st.out.length != 1) || (!rooted && st.out.length != 0)
               then st.out ++ ['/'] else st.out
      let elem := (c :: r).takeWhile (fun x => x != '/')
      cleanLoop rooted fuel ((c :: r).dropWhile (fun x => x != '/')) { st with out := o ++ elem }

/-- `path.Clean(p)`: the shortest path equivalent to `p` by purely lexical
processing. -/
def Clean (p : Str) : Str :=
  if p = [] then ['.']
  else
    let rooted := p.head? = some '/'
    let st := if rooted then cleanLoop true p.length (p.drop 1) { out := ['/'], dotdot := 1 }
              else cleanLoop false p.length p { out := [], dotdot := 0 }
    -- turn empty string into "."
    if st.out.length = 0 then ['.'] else st.out

/-- The loop of `path.Join` that concatenates the non-empty elements, separated
by slashes, into `buf`. -/
def joinLoop : List Str → Str → Str
  | [], buf => buf
  | e :: es, buf =>
    if buf.length > 0 ∨ e ≠ [] then
      joinLoop es ((if buf.length > 0 then buf ++ ['/'] else buf) ++ e)
    else joinLoop es buf

/-- `path.Join(elem...)`: joins the elements with slashes, ignoring empty
elements, and cleans the result; the empty string when all elements are
empty. -/
def Join (elem : List Str) : Str :=
  if (elem.map List.length).sum = 0 then []
  else Clean (joinLoop elem [])

/-! ## Data model of `main.go` -/

/-- One element of the Docker `manifest.json` array (`dockerManifestEntry`). -/
structure dockerManifestEntry where
  Config : Str
  RepoTags : List Str
  Layers : List Str
  deriving DecidableEq, Repr

/-- One element of `ociIndex.Manifests` (an anonymous struct in the source). -/
structure ociManifest where
  Digest : Str
  deriving DecidableEq, Repr

/-- The OCI `index.json` object (`ociIndex`). -/
structure ociIndex where
  Manifests : List ociManifest
  deriving DecidableEq, Repr

/-- The two uses of `json.Unmarshal` in `main`: decoding the manifest buffer
into `[]dockerManifestEntry` and the index buffer into `ociIndex`; `none` is a
non-nil error. -/
structure JsonDecoder where
  unmarshalManifest : Str → Option (List dockerManifestEntry)
  unmarshalIndex : Str → Option ociIndex

/-- One tar entry as the scan loop sees it: the header name returned by
`tr.Next()` and the bytes `io.ReadAll(tr)` yields for it.  (A failed content
read makes `archive/tar` return that error from the following `tr.Next()`, so in
a stream that reaches `io.EOF` these bytes are the full content.) -/
structure TarEntry where
  name : Str
  content : Str
  deriving DecidableEq, Repr

/-- How the sequence of `tr.Next()` calls ends: `io.EOF` or another error. -/
inductive TarEnd where
  | eof
  | err
  deriving DecidableEq, Repr

/-- The tar stream: the entries returned by `tr.Next()` in order, and how the
stream ends. -/
structure TarStream where
  entries : List TarEntry
  ending : TarEnd
  deriving DecidableEq, Repr

/-- One print call on standard output.  `text` is a `fmt.Println` of a constant;
the others are the `fmt.Printf` calls with their arguments:
`entry[%d] tags=%v config=%s`, `  MISSING: config %q`, `  MISSING: layer %q`,
`manifest[%d] digest=%s`, `  UNEXPECTED digest format: %q`, `  MISSING: %s`. -/
inductive Line where
  | text (s : String)
  | entry (i : Nat) (tags : List Str) (config : Str)
  | missingConfig (config : Str)
  | missingLayer (layer : Str)
  | manifest (i : Nat) (digest : Str)
  | unexpectedDigest (digest : Str)
  | missingBlob (expected : Str)
  deriving DecidableEq, Repr

/-- The lines whose format starts with `  MISSING:`. -/
def Line.isMissing : Line → Bool
  | .missingConfig _ => true
  | .missingLayer _ => true
  | .missingBlob _ => true
  | _ => false

/-- The path a `MISSING` line names. -/
def Line.missingPath : Line → Option Str
  | .missingConfig p => some p
  | .missingLayer p => some p
  | .missingBlob p => some p
  | _ => none

def dockerDetected : Line :=
  .text "Detected docker-archive (manifest.json). Checking referenced files..."

def dockerSuccess : Line := .text "All docker-archive referenced files present."

def ociDetected : Line :=
  .text "Detected OCI layout (index.json). Checking blobs/ references..."

def ociSuccess : Line := .text "All OCI index referenced blobs present."

def noLayout : Line :=
  .text "No manifest.json or index.json detected; tar may have an unexpected layout."

/-- What a run leaves behind: the lines on standard output, the diagnostics on
standard error (their constant prefix), and the exit code. -/
structure RunResult where
  stdout : List Line
  stderr : List String
  exitCode : Nat
  deriving DecidableEq, Repr

/-! ## Standard library: `encoding/json`, as `main` uses it -/

/-- A parsed JSON value. -/
inductive JVal where
  | null
  | bool (b : Bool)
  | num (raw : Str)
  | str (s : Str)
  | arr (xs : List JVal)
  | obj (kvs : List (Str × JVal))

/-- JSON whitespace. -/
def isSpace (c : Char) : Bool := c == ' ' || c == '\t' || c == '\r' || c == '\n'

def skipSpace (s : Str) : Str := s.dropWhile isSpace

def isDigit (c : Char) : Bool := decide ('0' ≤ c) && decide (c ≤ '9')

def hexVal (c : Char) : Option Nat :=
  if '0' ≤ c ∧ c ≤ '9' then some (c.toNat - 48)
  else if 'a' ≤ c ∧ c ≤ 'f' then some (c.toNat - 87)
  else if 'A' ≤ c ∧ c ≤ 'F' then some (c.toNat - 55)
  else none

/-- Decodes `\uXXXX` at the beginning of `s` (`getu4`). -/
def getu4 : Str → Option Nat
  | '\\' :: 'u' :: a :: b :: c :: d :: _ =>
    match hexVal a, hexVal b, hexVal c, hexVal d with
    | some a, some b, some c, some d => some (((a * 16 + b) * 16 + c) * 16 + d)
    | _, _, _, _ => none
  | _ => none

/-- `utf16.DecodeRune`: the code point of a surrogate pair, `none` (the
replacement character in Go) when the pair is not valid. -/
def decodeSurrogates (r1 r2 : Nat) : Option Nat :=
  if 0xd800 ≤ r1 ∧ r1 < 0xdc00 ∧ 0xdc00 ≤ r2 ∧ r2 < 0xe000
  then some ((r1 - 0xd800) * 1024 + (r2 - 0xdc00) + 0x10000) else none

/-- The body of a JSON string literal, after the opening quote: the decoded
string (reversed in `acc`) and the input after the closing quote.  Control
characters and invalid escapes are syntax errors; a lone surrogate decodes to
U+FFFD. -/
def parseStringBody : Nat → Str → Str → Option (Str × Str)
  | 0, _, _ => none
  | _ + 1, [], _ => none
  | _ + 1, '"' :: r, acc => some (acc.reverse, r)
  | fuel + 1, '\\' :: 'u' :: r, acc =>
    match getu4 ('\\' :: 'u' :: r) with
    | none => none
    | some rr =>
      if 0xd800 ≤ rr ∧ rr < 0xe000 then
        match (getu4 (r.drop 4)).bind (decodeSurrogates rr) with
        | some dec => parseStringBody fuel (r.drop 10) (Char.ofNat dec :: acc)
        | none => parseStringBody fuel (r.drop 4) (Char.ofNat 0xfffd :: acc)
      else parseStringBody fuel (r.drop 4) (Char.ofNat rr :: acc)
  | fuel + 1, '\\' :: c :: r, acc =>
    if c = '"' ∨ c = '\\' ∨ c = '/' then parseStringBody fuel r (c :: acc)
    else if c = 'b' then parseStringBody fuel r (Char.ofNat 8 :: acc)
    else if c = 'f' then parseStringBody fuel r (Char.ofNat 12 :: acc)
    else if c = 'n' then parseStringBody fuel r ('\n' :: acc)
    else if c = 'r' then parseStringBody fuel r ('\r' :: acc)
    else if c = 't' then parseStringBody fuel r ('\t' :: acc)
    else none
  | fuel + 1, c :: r, acc =>
    if c = '\\' ∨ c.toNat < 0x20 then none else parseStringBody fuel r (c :: acc)

/-- A non-empty run of digits; returns the input after it. -/
def parseDigits (s : Str) : Option Str :=
  match s.span isDigit with
  | ([], _) => none
  | (_, r) => some r

/-- A JSON number at the beginning of `s`; returns the input after it. -/
def parseNumber (s : Str) : Option Str :=
  let s1 := match s with
    | '-' :: r => r
    | _ => s
  let intPart : Option Str := match s1 with
    | '0' :: r => some r
    | _ => parseDigits s1
  let fracPart : Option Str := intPart.bind fun r =>
    match r with
    | '.' :: r1 => parseDigits r1
    | _ => some r
  fracPart.bind fun r =>
    match r with
    | 'e' :: '+' :: r1 => parseDigits r1
    | 'e' :: '-' :: r1 => parseDigits r1
    | 'e' :: r1 => parseDigits r1
    | 'E' :: '+' :: r1 => parseDigits r1
    | 'E' :: '-' :: r1 => parseDigits r1
    | 'E' :: r1 => parseDigits r1
    | _ => some r

/-- The scanner's bound on the nesting of arrays and objects. -/
def maxNestingDepth : Nat := 10000

mutual
/-- A JSON value at the beginning of the input (no leading whitespace);
`depth` is the number of enclosing arrays and objects. -/
def parseValue : Nat → Nat → Str → Option (JVal × Str)
  | 0, _, _ => none
  | fuel + 1, depth, s =>
    match s with
    | 'n' :: 'u' :: 'l' :: 'l' :: r => some (.null, r)
    | 't' :: 'r' :: 'u' :: 'e' :: r => some (.bool true, r)
    | 'f' :: 'a' :: 'l' :: 's' :: 'e' :: r => some (.bool false, r)
    | '"' :: r => (parseStringBody (r.length + 1) r []).map fun x => (.str x.1, x.2)
    | '[' :: r =>
      if depth ≥ maxNestingDepth then none
      else match skipSpace r with
        | ']' :: r1 => some (.arr [], r1)
        | r1 => parseElems fuel (depth + 1) r1 []
    | '{' :: r =>
      if depth ≥ maxNestingDepth then none
      else match skipSpace r with
        | '}' :: r1 => some (.obj [], r1)
        | r1 => parseMembers fuel (depth + 1) r1 []
    | _ => (parseNumber s).map fun r => (.num (s.take (s.length - r.length)), r)
/-- The elements of a non-empty array, up to and including the closing
bracket; `acc` holds the elements read so far, reversed. -/
def parseElems : Nat → Nat → Str → List JVal → Option (JVal × Str)
  | 0, _, _, _ => none
  | fuel + 1, depth, s, acc =>
    match parseValue fuel depth s with
    | none => none
    | some (v, r) =>
      match skipSpace r with
      | ',' :: r1 => parseElems fuel depth (skipSpace r1) (v :: acc)
      | ']' :: r1 => some (.arr (v :: acc).reverse, r1)
      | _ => none
/-- The members of a non-empty object, up to and including the closing
brace. -/
def parseMembers : Nat → Nat → Str → List (Str × JVal) → Option (JVal × Str)
  | 0, _, _, _ => none
  | fuel + 1, depth, s, acc =>
    match s with
    | '"' :: r =>
      match parseStringBody (r.length + 1) r [] with
      | none => none
      | some (k, r1) =>
        match skipSpace r1 with
        | ':' :: r2 =>
          match parseValue fuel depth (skipSpace r2) with
          | none => none
          | some (v, r3) =>
            match skipSpace r3 with
            | ',' :: r4 => parseMembers fuel depth (skipSpace r4) ((k, v) :: acc)
            | '}' :: r4 => some (.obj ((k, v) :: acc).reverse, r4)
            | _ => none
        | _ => none
    | _ => none
end

/-- The syntax pass of `json.Unmarshal`: exactly one JSON value, surrounded by
optional whitespace. -/
def parseJson (buf : Str) : Option JVal :=
  match parseValue (2 * buf.length + 2) 0 (skipSpace buf) with
  | some (v, r) => if skipSpace r = [] then some v else none
  | none => none

/-- Case folding of object keys (`foldName`): ASCII letters, and the two
non-ASCII characters that fold to ASCII letters (U+017F to `S`, U+212A to
`K`). -/
def foldRune (c : Char) : Char :=
  if 'a' ≤ c ∧ c ≤ 'z' then Char.ofNat (c.toNat - 32)
  else if c = Char.ofNat 0x17f then 'S'
  else if c = Char.ofNat 0x212a then 'K'
  else c

/-- Whether object key `key` selects the struct field tagged `field`: an
exact match, or a match after case folding. -/
def keyMatches (field : String) (key : Str) : Bool :=
  key == field.toList || key.map foldRune == field.toList.map foldRune

/-- Storing a JSON value into a `string`: a string is stored, `null` leaves the
current value, anything else is an `UnmarshalTypeError`. -/
def decodeString (cur : Str) : JVal → Option Str
  | .str s => some s
  | .null => some cur
  | _ => none

/-- A Go slice while `json.Unmarshal` stores into it: its elements, and the
elements its backing array still holds past its length (left there when an
earlier array stored into the same slice was longer). -/
structure GoSlice (α : Type) where
  elems : List α
  spare : List α

/-- The backing array of a slice, as far as it has been written. -/
def GoSlice.backing {α : Type} (s : GoSlice α) : List α := s.elems ++ s.spare

/-- Storing the elements of a JSON array into a `[]string` with backing array
`backing`: element `i` is decoded into element `i` of the backing array
(`v.Index(i)`, after `v.SetLen(i + 1)` when the slice was shorter), which is
the zero string where the backing array was never written or had to grow. -/
def decodeStrings : List Str → List JVal → Option (List Str)
  | _, [] => some []
  | backing, v :: vs =>
    match decodeString (backing.headD []) v, decodeStrings backing.tail vs with
    | some x, some xs => some (x :: xs)
    | _, _ => none

/-- Storing a JSON value into a `[]string`: `null` gives the nil slice, the
empty array a new empty slice, and a non-empty array is stored element by
element into the backing array of the current slice, whose later elements
stay behind the new length. -/
def decodeStringSlice (cur : GoSlice Str) : JVal → Option (GoSlice Str)
  | .arr xs =>
    if xs.isEmpty then some { elems := [], spare := [] }
    else (decodeStrings cur.backing xs).map fun ys =>
      { elems := ys, spare := cur.backing.drop xs.length }
  | .null => some { elems := [], spare := [] }
  | _ => none

/-- A `dockerManifestEntry` while an object is stored into it: the fields,
the two slices with their backing arrays. -/
structure EntryState where
  Config : Str
  RepoTags : GoSlice Str
  Layers : GoSlice Str

/-- The zero value of `dockerManifestEntry`. -/
def EntryState.zero : EntryState :=
  { Config := [], RepoTags := { elems := [], spare := [] },
    Layers := { elems := [], spare := [] } }

/-- The entry the program sees. -/
def EntryState.value (s : EntryState) : dockerManifestEntry :=
  { Config := s.Config, RepoTags := s.RepoTags.elems, Layers := s.Layers.elems }

/-- Storing the members of a JSON object into a `dockerManifestEntry`, in
order; members with unknown keys are skipped. -/
def decodeEntryFields : EntryState → List (Str × JVal) → Option EntryState
  | e, [] => some e
  | e, (k, v) :: kvs =>
    if keyMatches "Config" k then
      (decodeString e.Config v).bind fun c => decodeEntryFields { e with Config := c } kvs
    else if keyMatches "RepoTags" k then
      (decodeStringSlice e.RepoTags v).bind fun t => decodeEntryFields { e with RepoTags := t } kvs
    else if keyMatches "Layers" k then
      (decodeStringSlice e.Layers v).bind fun l => decodeEntryFields { e with Layers := l } kvs
    else decodeEntryFields e kvs

/-- Storing a JSON value into a zero `dockerManifestEntry` (the elements of
`entries` are new: the slice is nil before the one array is stored). -/
def decodeEntry : JVal → Option dockerManifestEntry
  | .obj kvs => (decodeEntryFields EntryState.zero kvs).map EntryState.value
  | .null => some EntryState.zero.value
  | _ => none

/-- The elements of the top-level array, each into a fresh entry. -/
def decodeEntries : List JVal → Option (List dockerManifestEntry)
  | [] => some []
  | v :: vs =>
    match decodeEntry v, decodeEntries vs with
    | some e, some es => some (e :: es)
    | _, _ => none

/-- Storing a JSON value into the nil `entries`: an array is stored element
by element, `null` leaves nil, anything else is an `UnmarshalTypeError`. -/
def decodeManifest : JVal → Option (List dockerManifestEntry)
  | .arr xs => decodeEntries xs
  | .null => some []
  | _ => none

/-- Model of `json.Unmarshal(manifestBuf, &entries)`. -/
def unmarshalManifest (buf : Str) : Option (List dockerManifestEntry) :=
  (parseJson buf).bind decodeManifest

/-- Storing the members of a JSON object into a descriptor. -/
def decodeDescriptorFields : ociManifest → List (Str × JVal) → Option ociManifest
  | m, [] => some m
  | m, (k, v) :: kvs =>
    if keyMatches "digest" k then
      (decodeString m.Digest v).bind fun d => decodeDescriptorFields { Digest := d } kvs
    else decodeDescriptorFields m kvs

/-- Storing a JSON value into the descriptor `cur`. -/
def decodeDescriptor (cur : ociManifest) : JVal → Option ociManifest
  | .obj kvs => decodeDescriptorFields cur kvs
  | .null => some cur
  | _ => none

/-- Storing the elements of a JSON array into `Manifests` with backing array
`backing`: element `i` is decoded into element `i` of the backing array, which
is the zero descriptor where the backing array was never written or had to
grow. -/
def decodeDescriptors : List ociManifest → List JVal → Option (List ociManifest)
  | _, [] => some []
  | backing, v :: vs =>
    match decodeDescriptor (backing.headD { Digest := [] }) v,
      decodeDescriptors backing.tail vs with
    | some m, some ms => some (m :: ms)
    | _, _ => none

/-- Storing a JSON value into `Manifests`: `null` gives the nil slice, the
empty array a new empty slice, and a non-empty array is stored element by
element into the backing array of the current slice. -/
def decodeManifests (cur : GoSlice ociManifest) : JVal → Option (GoSlice ociManifest)
  | .arr xs =>
    if xs.isEmpty then some { elems := [], spare := [] }
    else (decodeDescriptors cur.backing xs).map fun ms =>
      { elems := ms, spare := cur.backing.drop xs.length }
  | .null => some { elems := [], spare := [] }
  | _ => none

/-- Storing the members of the top-level object into an `ociIndex`, whose only
field is the slice `Manifests`. -/
def decodeIndexFields : GoSlice ociManifest → List (Str × JVal) → Option (GoSlice ociManifest)
  | ms, [] => some ms
  | ms, (k, v) :: kvs =>
    if keyMatches "manifests" k then
      (decodeManifests ms v).bind fun ms1 => decodeIndexFields ms1 kvs
    else decodeIndexFields ms kvs

/-- Storing a JSON value into the zero `idx`: an object is stored member by
member, `null` leaves the zero value, anything else is an
`UnmarshalTypeError`. -/
def decodeIndex : JVal → Option ociIndex
  | .obj kvs =>
    (decodeIndexFields { elems := [], spare := [] } kvs).map fun ms => { Manifests := ms.elems }
  | .null => some { Manifests := [] }
  | _ => none

/-- Model of `json.Unmarshal(indexBuf, &idx)`. -/
def unmarshalIndex (buf : Str) : Option ociIndex :=
  (parseJson buf).bind decodeIndex

/-! ### Which JSON values `json.Unmarshal` accepts -/

/-- A value a `string` accepts: a string or `null`. -/
def stringOrNull : JVal → Bool
  | .str _ => true
  | .null => true
  | _ => false

/-- A value a `[]string` accepts: `null`, or an array of strings and nulls. -/
def stringsOrNull : JVal → Bool
  | .arr xs => xs.all stringOrNull
  | .null => true
  | _ => false

/-- A member of a manifest entry object is acceptable: a known key has a value
of the type of its field, any other key is ignored. -/
def entryMemberOk (kv : Str × JVal) : Bool :=
  if keyMatches "Config" kv.1 then stringOrNull kv.2
  else if keyMatches "RepoTags" kv.1 then stringsOrNull kv.2
  else if keyMatches "Layers" kv.1 then stringsOrNull kv.2
  else true

/-- A value a `dockerManifestEntry` accepts: `null`, or an object whose
members are acceptable. -/
def entryValueOk : JVal → Bool
  | .obj kvs => kvs.all entryMemberOk
  | .null => true
  | _ => false

/-- A value `[]dockerManifestEntry` accepts: `null`, or an array of acceptable
entries. -/
def manifestValueOk : JVal → Bool
  | .arr xs => xs.all entryValueOk
  | .null => true
  | _ => false

/-- A member of a descriptor object is acceptable. -/
def descriptorMemberOk (kv : Str × JVal) : Bool :=
  if keyMatches "digest" kv.1 then stringOrNull kv.2 else true

/-- A value a descriptor accepts: `null`, or an object whose members are
acceptable. -/
def descriptorValueOk : JVal → Bool
  | .obj kvs => kvs.all descriptorMemberOk
  | .null => true
  | _ => false

/-- A value `Manifests` accepts: `null`, or an array of acceptable
descriptors. -/
def manifestsValueOk : JVal → Bool
  | .arr xs => xs.all descriptorValueOk
  | .null => true
  | _ => false

/-- A member of the index object is acceptable. -/
def indexMemberOk (kv : Str × JVal) : Bool :=
  if keyMatches "manifests" kv.1 then manifestsValueOk kv.2 else true

/-- A value `ociIndex` accepts: `null`, or an object whose members are
acceptable. -/
def indexValueOk : JVal → Bool
  | .obj kvs => kvs.all indexMemberOk
  | .null => true
  | _ => false

/-- The decoder the program runs with. -/
def goJson : JsonDecoder :=
  { unmarshalManifest := unmarshalManifest, unmarshalIndex := unmarshalIndex }

/-! ## The scan loop (lines 60-84) -/

/-- The variables the scan loop updates: the `found` map (a missing key reads
as `false`) and the two capture buffers. -/
structure ScanState where
  found : Str → Bool
  manifestBuf : Str
  indexBuf : Str

/-- State before the loop: `found := map[string]bool{}`, both buffers nil. -/
def ScanState.init : ScanState :=
  { found := fun _ => false, manifestBuf := [], indexBuf := [] }

/-- The name normalization of line 73. -/
def normalizeName (n : Str) : Str := TrimPrefix n "./".toList

/-- One iteration of the scan loop for a header returned by `tr.Next()`. -/
def scanStep (st : ScanState) (h : TarEntry) : ScanState :=
  let name := normalizeName h.name
  let found := fun k => if k = name then true else st.found k
  if Base name = "manifest.json".toList then
    { found := found, manifestBuf := h.content, indexBuf := st.indexBuf }
  else if Base name = "index.json".toList then
    { found := found, manifestBuf := st.manifestBuf, indexBuf := h.content }
  else
    { found := found, manifestBuf := st.manifestBuf, indexBuf := st.indexBuf }

/-- The scan loop over the entries of the stream. -/
def scan (entries : List TarEntry) : ScanState :=
  entries.foldl scanStep ScanState.init

/-- Last-match-wins, in the words of the specification: the content of the
last entry, in stream order, whose normalized name has basename `base`; empty
when there is no such entry. -/
def lastCaptured (base : Str) (entries : List TarEntry) : Str :=
  match (entries.filter (fun e => Base (normalizeName e.name) = base)).getLast? with
  | some e => e.content
  | none => []

/-! ## Docker-archive check (lines 93-109) -/

/-- The inner loop over `e.Layers`; returns the lines printed and `ok`. -/
def checkLayers (found : Str → Bool) : List Str → Bool → List Line × Bool
  | [], ok => ([], ok)
  | l :: ls, ok =>
    if !found l then
      let r := checkLayers found ls false
      (Line.missingLayer l :: r.1, r.2)
    else checkLayers found ls ok

/-- The loop `for i, e := range entries`; returns the lines printed and `ok`. -/
def checkEntries (found : Str → Bool) : Nat → List dockerManifestEntry → Bool → List Line × Bool
  | _, [], ok => ([], ok)
  | i, e :: es, ok =>
    let c : List Line × Bool :=
      if !found e.Config then ([Line.missingConfig e.Config], false) else ([], ok)
    let l := checkLayers found e.Layers c.2
    let r := checkEntries found (i + 1) es l.2
    (Line.entry i e.RepoTags e.Config :: (c.1 ++ l.1 ++ r.1), r.2)

/-- Lines 93-109: the loop from `ok := true`, then the summary when `ok`. -/
def dockerCheck (found : Str → Bool) (entries : List dockerManifestEntry) : List Line :=
  let r := checkEntries found 0 entries true
  r.1 ++ (if r.2 then [dockerSuccess] else [])

/-- The references of a manifest entry in the order they are checked: its
`Config`, then its `Layers`. -/
def dockerManifestEntry.refs (e : dockerManifestEntry) : List Str := e.Config :: e.Layers

/-- The lines one iteration of the entry loop prints, described directly: the
status line, then one `MISSING` line per absent reference. -/
def entryLines (found : Str → Bool) (i : Nat) (e : dockerManifestEntry) : List Line :=
  Line.entry i e.RepoTags e.Config ::
    ((if found e.Config then [] else [Line.missingConfig e.Config]) ++
      (e.Layers.filter (fun l => !found l)).map Line.missingLayer)

/-- The lines of all iterations, entry `k` of the list having index `i + k`. -/
def entriesLines (found : Str → Bool) : Nat → List dockerManifestEntry → List Line
  | _, [] => []
  | i, e :: es => entryLines found i e ++ entriesLines found (i + 1) es

/-! ## OCI check (lines 119-137) -/

/-- The body of the loop `for i, m := range idx.Manifests` for one descriptor;
returns the lines printed and the new `ok`. -/
def checkDescriptor (found : Str → Bool) (i : Nat) (m : ociManifest) (ok : Bool) :
    List Line × Bool :=
  let parts := SplitN m.Digest ':' 2
  if parts.length ≠ 2 then
    ([Line.manifest i m.Digest, Line.unexpectedDigest m.Digest], false)
  else
    let algo := parts.getD 0 []
    let hex := parts.getD 1 []
    let expected := Join ["blobs".toList, algo, hex]
    if !found expected then
      ([Line.manifest i m.Digest, Line.missingBlob expected], false)
    else ([Line.manifest i m.Digest], ok)

/-- The loop over `idx.Manifests`; returns the lines printed and `ok`. -/
def checkDescriptors (found : Str → Bool) : Nat → List ociManifest → Bool → List Line × Bool
  | _, [], ok => ([], ok)
  | i, m :: ms, ok =>
    let d := checkDescriptor found i m ok
    let r := checkDescriptors found (i + 1) ms d.2
    (d.1 ++ r.1, r.2)

/-- Lines 119-137: the loop from `ok := true`, then the summary when `ok`. -/
def ociCheck (found : Str → Bool) (idx : ociIndex) : List Line :=
  let r := checkDescriptors found 0 idx.Manifests true
  r.1 ++ (if r.2 then [ociSuccess] else [])

/-- Whether a descriptor passes the check: its digest splits in two and the
expected path is in the entry set. -/
def descriptorOk (found : Str → Bool) (m : ociManifest) : Bool :=
  match SplitN m.Digest ':' 2 with
  | [algo, hex] => found (Join ["blobs".toList, algo, hex])
  | _ => false

/-- The lines one iteration of the descriptor loop prints (they do not depend
on the value of `ok` on entry). -/
def descriptorLines (found : Str → Bool) (i : Nat) (m : ociManifest) : List Line :=
  (checkDescriptor found i m true).1

/-- The lines of all iterations, descriptor `k` of the list having index
`i + k`. -/
def descriptorsLines (found : Str → Bool) : Nat → List ociManifest → List Line
  | _, [] => []
  | i, m :: ms => descriptorLines found i m ++ descriptorsLines found (i + 1) ms

/-- A path element that `path.Clean` copies as it is: not empty, without a
slash, and neither `.` nor `..`. -/
def plainElement (s : Str) : Prop :=
  s ≠ [] ∧ '/' ∉ s ∧ s ≠ ['.'] ∧ s ≠ ['.', '.']

instance (s : Str) : Decidable (plainElement s) := by
  unfold plainElement
  infer_instance

/-! ## The run after the scan (lines 86-143) -/

/-- Outcome of one `if len(buf) > 0` block: it either falls through having
printed `out`, or calls `os.Exit(2)` after printing `out` and the diagnostic. -/
inductive Phase where
  | done (out : List Line)
  | fatal (out : List Line) (diag : String)
  deriving DecidableEq, Repr

/-- Lines 86-110. -/
def dockerPhase (J : JsonDecoder) (st : ScanState) : Phase :=
  if st.manifestBuf.length > 0 then
    match J.unmarshalManifest st.manifestBuf with
    | none => .fatal [dockerDetected] "parse manifest.json:"
    | some entries => .done (dockerDetected :: dockerCheck st.found entries)
  else .done []

/-- Lines 112-138. -/
def ociPhase (J : JsonDecoder) (st : ScanState) : Phase :=
  if st.indexBuf.length > 0 then
    match J.unmarshalIndex st.indexBuf with
    | none => .fatal [ociDetected] "parse index.json:"
    | some idx => .done (ociDetected :: ociCheck st.found idx)
  else .done []

/-- Lines 140-142. -/
def noLayoutPhase (st : ScanState) : List Line :=
  if st.indexBuf.length = 0 ∧ st.manifestBuf.length = 0 then [noLayout] else []

/-- Lines 86-143: everything `main` does after the scan loop. -/
def report (J : JsonDecoder) (st : ScanState) : RunResult :=
  match dockerPhase J st with
  | .fatal out diag => { stdout := out, stderr := [diag], exitCode := 2 }
  | .done out1 =>
    match ociPhase J st with
    | .fatal out diag => { stdout := out1 ++ out, stderr := [diag], exitCode := 2 }
    | .done out2 => { stdout := out1 ++ out2 ++ noLayoutPhase st, stderr := [], exitCode := 0 }

/-- Lines 59-143: `main` from `tar.NewReader` on.  An error of `tr.Next()` other
than `io.EOF` exits with code 2 before anything is printed on standard
output. -/
def runTar (J : JsonDecoder) (tr : TarStream) : RunResult :=
  match tr.ending with
  | .err => { stdout := [], stderr := ["tar read:"], exitCode := 2 }
  | .eof => report J (scan tr.entries)

/-! ## The tar reader with failing content reads -/

/-- One entry of the tar stream as `archive/tar` holds it: the header name, the
bytes `io.ReadAll(tr)` returns for the entry, and whether that read ends in an
error other than `io.EOF` (then the bytes are the part read before it). -/
structure TarItem where
  name : Str
  read : Str
  readErr : Bool
  deriving DecidableEq, Repr

/-- The tar stream below the loop of `main`: its items and how the sequence of
headers ends. -/
structure RawTar where
  items : List TarItem
  ending : TarEnd
  deriving DecidableEq, Repr

/-- What the loop of `main` gets from `tr.Next()` and `io.ReadAll(tr)`.  The
reader keeps a content error (`tr.err`) and returns it from the following
`tr.Next()`: the item whose content cannot be read is still delivered, with
the bytes read so far, and the stream ends in an error right after it. -/
def deliver : List TarItem → TarEnd → TarStream
  | [], ending => { entries := [], ending := ending }
  | it :: its, ending =>
    if it.readErr then { entries := [⟨it.name, it.read⟩], ending := .err }
    else
      let r := deliver its ending
      { entries := ⟨it.name, it.read⟩ :: r.entries, ending := r.ending }

/-! ## The start of `main` (lines 29-59) -/

/-- The zstd frame magic number of line 49. -/
def zstdMagic : List Nat := [0x28, 0xB5, 0x2F, 0xFD]

/-- The opened file as `main` observes it: its bytes, whether the first `Read`,
the `Seek` and `zstd.NewReader` fail, and the tar stream a reader yields when it
starts at a given offset of the file, directly (`rawTar`) or through the zstd
decoder (`zstdTar`). -/
structure Source where
  bytes : List Nat
  readErr : Bool
  seekErr : Bool
  zstdErr : Bool
  rawTar : Nat → RawTar
  zstdTar : Nat → RawTar

/-- Lines 43-47, `f.Read(header[:])` on a file at offset 0: `none` when the
read returns an error (`io.EOF` for an empty file); otherwise the `header`
array, zero where no byte was read, and the offset after the read. -/
def readHeader (src : Source) : Option (List Nat × Nat) :=
  if src.readErr then none
  else if src.bytes = [] then none
  else some (src.bytes.take 4 ++ List.replicate (4 - (src.bytes.take 4).length) 0,
    min 4 src.bytes.length)

/-- Line 48, `_, _ = f.Seek(0, io.SeekStart)`: the offset of the file after the
call, whose result is discarded. -/
def seekStart (src : Source) (pos : Nat) : Nat :=
  if src.seekErr then pos else 0

/-- The reader handed to `tar.NewReader`: the file itself or the zstd decoder
around it, and the offset of the file at which it starts reading. -/
inductive Route where
  | raw (offset : Nat)
  | zstd (offset : Nat)
  deriving DecidableEq, Repr

/-- Lines 42-57 up to the choice of the reader; `none` when the header read is
fatal. -/
def route (src : Source) : Option Route :=
  match readHeader src with
  | none => none
  | some (header, pos) =>
    let off := seekStart src pos
    if header = zstdMagic then some (.zstd off) else some (.raw off)

/-- A fatal exit: the diagnostic on standard error and exit code 2. -/
def fatal (diag : String) : RunResult :=
  { stdout := [], stderr := [diag], exitCode := 2 }

/-- Lines 41-143: `main` once the file is open. -/
def runSource (J : JsonDecoder) (src : Source) : RunResult :=
  match route src with
  | none => fatal "read header:"
  | some (.raw off) => runTar J (deliver (src.rawTar off).items (src.rawTar off).ending)
  | some (.zstd off) =>
    if src.zstdErr then fatal "zstd new reader:"
    else runTar J (deliver (src.zstdTar off).items (src.zstdTar off).ending)

/-- The whole of `main`: `args` is `os.Args` and `fs` is `os.Open` (`none` when
it fails). -/
def main (J : JsonDecoder) (args : List Str) (fs : Str → Option Source) : RunResult :=
  match args with
  | _ :: p :: _ =>
    match fs p with
    | none => fatal "open:"
    | some src => runSource J src
  | _ => fatal "usage: tarcheck <tar|tar.zst>"

/-- The lines a block printed, whether it fell through or exited. -/
def Phase.out : Phase → List Line
  | .done out => out
  | .fatal out _ => out

/-! ## Findings -/

/-- The lines that record an integrity finding: the `MISSING` lines and the
`UNEXPECTED digest format` line. -/
def Line.isFinding : Line → Bool
  | .missingConfig _ => true
  | .missingLayer _ => true
  | .missingBlob _ => true
  | .unexpectedDigest _ => true
  | _ => false

/-- A run passes when it ends with exit code 0 and printed no finding. -/
def passes (r : RunResult) : Prop :=
  r.exitCode = 0 ∧ ∀ ln ∈ r.stdout, ln.isFinding = false

/-- The lines only the Docker-archive block prints. -/
def Line.isDocker (ln : Line) : Bool :=
  match ln with
  | .entry _ _ _ => true
  | .missingConfig _ => true
  | .missingLayer _ => true
  | .text _ => ln == dockerDetected || ln == dockerSuccess
  | _ => false

/-- The lines only the OCI block prints. -/
def Line.isOci (ln : Line) : Bool :=
  match ln with
  | .manifest _ _ => true
  | .unexpectedDigest _ => true
  | .missingBlob _ => true
  | .text _ => ln == ociDetected || ln == ociSuccess
  | _ => false

/-- All references of a manifest in the order they are checked. -/
def allRefs (manifest : List dockerManifestEntry) : List Str :=
  manifest.flatMap dockerManifestEntry.refs

/-- The finding of one descriptor, if any: the `UNEXPECTED` line for a digest
that does not split in two, the `MISSING` line for an absent blob. -/
def descriptorFinding (found : Str → Bool) (m : ociManifest) : Option Line :=
  match SplitN m.Digest ':' 2 with
  | [algo, hex] =>
    if found (Join ["blobs".toList, algo, hex]) then none
    else some (Line.missingBlob (Join ["blobs".toList, algo, hex]))
  | _ => some (Line.unexpectedDigest m.Digest)

end TarCheck

/-! # Theorems -/

namespace TarCheck

/-! ## The entry set built by the scan -/

theorem scanStep_found (st : ScanState) (h : TarEntry) (k : Str) :
    (scanStep st h).found k = (if k = normalizeName h.name then true else st.found k) := by
  unfold scanStep
  dsimp only
  by_cases h1 : Base (normalizeName h.name) = "manifest.json".toList
  · rw [if_pos h1]
  · rw [if_neg h1]
    by_cases h2 : Base (normalizeName h.name) = "index.json".toList
    · rw [if_pos h2]
    · rw [if_neg h2]

theorem foldl_scanStep_found (entries : List TarEntry) (st : ScanState) (k : Str) :
    (entries.foldl scanStep st).found k = true ↔
      st.found k = true ∨ ∃ t ∈ entries, normalizeName t.name = k := by
  induction entries generalizing st with
  | nil => simp
  | cons t ts ih =>
    rw [List.foldl_cons, ih, scanStep_found]
    by_cases hk : k = normalizeName t.name
    · simp [hk]
    · have hk2 : ¬ normalizeName t.name = k := fun h => hk h.symm
      simp [hk, hk2]

/-- After the scan, `found` holds exactly the normalized entry names. -/
theorem scan_found (entries : List TarEntry) (k : Str) :
    (scan entries).found k = true ↔ ∃ t ∈ entries, normalizeName t.name = k := by
  unfold scan
  rw [foldl_scanStep_found]
  simp [ScanState.init]

/-! ## The capture buffers -/

theorem foldl_scanStep_manifestBuf (entries : List TarEntry) (st : ScanState) :
    (entries.foldl scanStep st).manifestBuf =
      match (entries.filter
        (fun e => Base (normalizeName e.name) = "manifest.json".toList)).getLast? with
      | some e => e.content
      | none => st.manifestBuf := by
  induction entries generalizing st with
  | nil => rfl
  | cons t ts ih =>
    rw [List.foldl_cons, ih]
    by_cases h : Base (normalizeName t.name) = "manifest.json".toList
    · rw [List.filter_cons_of_pos (by simpa using h), List.getLast?_cons]
      cases hl : (ts.filter
          (fun e => decide (Base (normalizeName e.name) = "manifest.json".toList))).getLast? with
      | some e => rfl
      | none =>
        simp only [Option.getD_none]
        unfold scanStep
        rw [if_pos h]
    · rw [List.filter_cons_of_neg (by simpa using h)]
      cases hl : (ts.filter
          (fun e => decide (Base (normalizeName e.name) = "manifest.json".toList))).getLast? with
      | some e => rfl
      | none =>
        simp only
        unfold scanStep
        dsimp only
        rw [if_neg h]
        split_ifs <;> rfl

theorem foldl_scanStep_indexBuf (entries : List TarEntry) (st : ScanState) :
    (entries.foldl scanStep st).indexBuf =
      match (entries.filter
        (fun e => Base (normalizeName e.name) = "index.json".toList)).getLast? with
      | some e => e.content
      | none => st.indexBuf := by
  have hne : "index.json".toList ≠ "manifest.json".toList := by decide
  induction entries generalizing st with
  | nil => rfl
  | cons t ts ih =>
    rw [List.foldl_cons, ih]
    by_cases h : Base (normalizeName t.name) = "index.json".toList
    · have h1 : ¬ Base (normalizeName t.name) = "manifest.json".toList := by
        rw [h]; exact hne
      rw [List.filter_cons_of_pos (by simpa using h), List.getLast?_cons]
      cases hl : (ts.filter
          (fun e => decide (Base (normalizeName e.name) = "index.json".toList))).getLast? with
      | some e => rfl
      | none =>
        simp only [Option.getD_none]
        unfold scanStep
        dsimp only
        rw [if_neg h1, if_pos h]
    · rw [List.filter_cons_of_neg (by simpa using h)]
      cases hl : (ts.filter
          (fun e => decide (Base (normalizeName e.name) = "index.json".toList))).getLast? with
      | some e => rfl
      | none =>
        simp only
        unfold scanStep
        dsimp only
        rw [if_neg h]
        split_ifs <;> rfl

theorem scan_manifestBuf (entries : List TarEntry) :
    (scan entries).manifestBuf = lastCaptured "manifest.json".toList entries := by
  unfold scan lastCaptured
  rw [foldl_scanStep_manifestBuf]
  rfl

theorem scan_indexBuf (entries : List TarEntry) :
    (scan entries).indexBuf = lastCaptured "index.json".toList entries := by
  unfold scan lastCaptured
  rw [foldl_scanStep_indexBuf]
  rfl

theorem lastCaptured_of_no_match (base : Str) (entries : List TarEntry)
    (h : ∀ e ∈ entries, Base (normalizeName e.name) ≠ base) : lastCaptured base entries = [] := by
  unfold lastCaptured
  have : entries.filter (fun e => decide (Base (normalizeName e.name) = base)) = [] := by
    rw [List.filter_eq_nil_iff]
    intro e he
    simpa using h e he
  rw [this]
  rfl

/-! ## The Docker-archive loop -/

theorem checkLayers_snd (found : Str → Bool) (ls : List Str) (ok : Bool) :
    (checkLayers found ls ok).2 = (ok && ls.all found) := by
  induction ls generalizing ok with
  | nil => simp [checkLayers]
  | cons l ls ih =>
    unfold checkLayers
    cases hl : found l <;> simp [ih, hl]

theorem checkLayers_fst (found : Str → Bool) (ls : List Str) (ok : Bool) :
    (checkLayers found ls ok).1 = (ls.filter (fun l => !found l)).map Line.missingLayer := by
  induction ls generalizing ok with
  | nil => simp [checkLayers]
  | cons l ls ih =>
    unfold checkLayers
    cases hl : found l <;> simp [ih, hl]

theorem checkEntries_snd (found : Str → Bool) (i : Nat) (es : List dockerManifestEntry)
    (ok : Bool) :
    (checkEntries found i es ok).2 =
      (ok && es.all (fun e => found e.Config && e.Layers.all found)) := by
  induction es generalizing i ok with
  | nil => simp [checkEntries]
  | cons e es ih =>
    unfold checkEntries
    dsimp only
    rw [ih, checkLayers_snd]
    cases hc : found e.Config <;> simp [hc, Bool.and_assoc]

theorem checkEntries_fst (found : Str → Bool) (i : Nat) (es : List dockerManifestEntry)
    (ok : Bool) :
    (checkEntries found i es ok).1 = entriesLines found i es := by
  induction es generalizing i ok with
  | nil => simp [checkEntries, entriesLines]
  | cons e es ih =>
    unfold checkEntries
    dsimp only
    rw [ih, checkLayers_fst, entriesLines, entryLines]
    cases hc : found e.Config <;> simp [hc]

/-- The output of the Docker check, described directly. -/
theorem dockerCheck_eq (found : Str → Bool) (es : List dockerManifestEntry) :
    dockerCheck found es =
      entriesLines found 0 es ++
        (if es.all (fun e => found e.Config && e.Layers.all found) then [dockerSuccess] else []) := by
  unfold dockerCheck
  dsimp only
  rw [checkEntries_fst, checkEntries_snd]
  simp

theorem mem_entriesLines_missingConfig (found : Str → Bool) (i : Nat)
    (es : List dockerManifestEntry) (p : Str) :
    Line.missingConfig p ∈ entriesLines found i es ↔ ∃ e ∈ es, e.Config = p ∧ found p = false := by
  induction es generalizing i with
  | nil => simp [entriesLines]
  | cons e es ih =>
    rw [entriesLines, List.mem_append, ih, entryLines]
    by_cases hc : found e.Config = true
    · simp [hc]
      intro h1 h2
      rw [h1] at hc
      simp [hc] at h2
    · simp [hc]
      constructor
      · rintro (h | h)
        · left; subst h; simpa using hc
        · right; exact h
      · rintro (⟨h, _⟩ | h)
        · left; exact h.symm
        · right; exact h

theorem mem_entriesLines_missingLayer (found : Str → Bool) (i : Nat)
    (es : List dockerManifestEntry) (p : Str) :
    Line.missingLayer p ∈ entriesLines found i es ↔
      ∃ e ∈ es, p ∈ e.Layers ∧ found p = false := by
  induction es generalizing i with
  | nil => simp [entriesLines]
  | cons e es ih =>
    rw [entriesLines, List.mem_append, ih, entryLines]
    by_cases hc : found e.Config = true <;> simp [hc]

theorem text_not_mem_entriesLines (found : Str → Bool) (i : Nat)
    (es : List dockerManifestEntry) (t : String) :
    Line.text t ∉ entriesLines found i es := by
  induction es generalizing i with
  | nil => simp [entriesLines]
  | cons e es ih =>
    rw [entriesLines, List.mem_append, entryLines]
    by_cases hc : found e.Config = true <;> simp [hc, ih]

theorem isMissing_of_mem_entriesLines (found : Str → Bool) (i : Nat)
    (es : List dockerManifestEntry) (ln : Line) (h : ln ∈ entriesLines found i es)
    (hm : ln.isMissing = true) :
    ∃ e ∈ es, ∃ p ∈ e.refs, found p = false ∧ ln.missingPath = some p := by
  induction es generalizing i with
  | nil => simp [entriesLines] at h
  | cons e es ih =>
    rw [entriesLines, List.mem_append] at h
    rcases h with h | h
    · refine ⟨e, List.mem_cons_self _ _, ?_⟩
      rw [entryLines, List.mem_cons, List.mem_append] at h
      rcases h with h | h | h
      · subst h; simp [Line.isMissing] at hm
      · by_cases hc : found e.Config = true
        · simp [hc] at h
        · simp [hc] at h
          subst h
          exact ⟨e.Config, by simp [dockerManifestEntry.refs], by simpa using hc, rfl⟩
      · simp only [List.mem_map, List.mem_filter] at h
        obtain ⟨l, ⟨hl, hf⟩, rfl⟩ := h
        exact ⟨l, by simp [dockerManifestEntry.refs, hl], by simpa using hf, rfl⟩
    · obtain ⟨e1, he1, r⟩ := ih (i + 1) h
      exact ⟨e1, List.mem_cons_of_mem _ he1, r⟩

/-! ## `strings.SplitN` with limit 2 -/

theorem span_ne_of_not_mem (c : Char) (s : Str) (h : c ∉ s) :
    s.span (fun x => x != c) = (s, []) := by
  rw [List.span_eq_take_drop]
  have hall : ∀ x ∈ s, (x != c) = true := by
    intro x hx
    simp only [bne_iff_ne, ne_eq]
    rintro rfl
    exact h hx
  rw [List.takeWhile_eq_self_iff.mpr hall, List.dropWhile_eq_nil_iff.mpr hall]

theorem span_ne_append (c : Char) (a r : Str) (h : c ∉ a) :
    (a ++ c :: r).span (fun x => x != c) = (a, c :: r) := by
  rw [List.span_eq_take_drop]
  have hall : ∀ x ∈ a, (x != c) = true := by
    intro x hx
    simp only [bne_iff_ne, ne_eq]
    rintro rfl
    exact h hx
  rw [List.takeWhile_append_of_pos hall, List.dropWhile_append_of_pos hall]
  simp

/-- Without the separator there is one piece. -/
theorem SplitN_two_of_not_mem (c : Char) (s : Str) (h : c ∉ s) : SplitN s c 2 = [s] := by
  unfold SplitN
  rw [span_ne_of_not_mem c s h]

/-- With the separator the split is at its first occurrence. -/
theorem SplitN_two_append (c : Char) (a r : Str) (h : c ∉ a) :
    SplitN (a ++ c :: r) c 2 = [a, r] := by
  unfold SplitN
  rw [span_ne_append c a r h]
  simp [SplitN]

/-- A string that contains the separator splits at its first occurrence. -/
theorem exists_first_split (c : Char) (s : Str) (h : c ∈ s) :
    ∃ a r, s = a ++ c :: r ∧ c ∉ a := by
  induction s with
  | nil => simp at h
  | cons x xs ih =>
    by_cases hx : x = c
    · exact ⟨[], xs, by simp [hx], by simp⟩
    · have hmem : c ∈ xs := by
        rcases List.mem_cons.mp h with h1 | h1
        · exact absurd h1.symm hx
        · exact h1
      obtain ⟨a, r, hs, ha⟩ := ih hmem
      refine ⟨x :: a, r, by simp [hs], ?_⟩
      intro hc
      rcases List.mem_cons.mp hc with h1 | h1
      · exact hx h1.symm
      · exact ha h1

theorem SplitN_two_length (c : Char) (s : Str) : (SplitN s c 2).length = 2 ↔ c ∈ s := by
  constructor
  · intro h
    by_contra hc
    rw [SplitN_two_of_not_mem c s hc] at h
    simp at h
  · intro h
    obtain ⟨a, r, hs, ha⟩ := exists_first_split c s h
    rw [hs, SplitN_two_append c a r ha]
    rfl

/-! ## `path.Clean` on plain elements -/

theorem cleanLoop_nil (rooted : Bool) (fuel : Nat) (st : CleanState) :
    cleanLoop rooted fuel [] st = st := by
  cases fuel <;> rfl

theorem cleanLoop_slash (rooted : Bool) (fuel : Nat) (r : Str) (st : CleanState) :
    cleanLoop rooted (fuel + 1) ('/' :: r) st = cleanLoop rooted fuel r st := by
  rw [cleanLoop, if_pos rfl]

/-- A plain element, followed by the end of the path or by a slash, is
appended to the output, after a slash when the output is not empty. -/
theorem cleanLoop_plain (fuel : Nat) (s r : Str) (st : CleanState) (hs : plainElement s)
    (hr : r = [] ∨ r.head? = some '/') :
    cleanLoop false (fuel + 1) (s ++ r) st =
      cleanLoop false fuel r
        { st with out := (if st.out.length = 0 then st.out else st.out ++ ['/']) ++ s } := by
  obtain ⟨hne, hslash, hdot, hdotdot⟩ := hs
  have hall : ∀ x ∈ s, (x != '/') = true := by
    intro x hx
    simp only [bne_iff_ne, ne_eq]
    rintro rfl
    exact hslash hx
  have hrd : r.dropWhile (fun x => x != '/') = r := by
    rcases hr with rfl | hr
    · rfl
    · cases r with
      | nil => rfl
      | cons y ys =>
        simp only [List.head?_cons, Option.some.injEq] at hr
        subst hr
        simp
  have hrt : r.takeWhile (fun x => x != '/') = [] := by
    rcases hr with rfl | hr
    · rfl
    · cases r with
      | nil => rfl
      | cons y ys =>
        simp only [List.head?_cons, Option.some.injEq] at hr
        subst hr
        simp
  cases s with
  | nil => exact absurd rfl hne
  | cons c t =>
    have hc : c ≠ '/' := fun h => hslash (by simp [h])
    have ht : '/' ∉ t := fun h => hslash (List.mem_cons_of_mem _ h)
    have h2 : ¬ (c = '.' ∧ (t ++ r = [] ∨ (t ++ r).head? = some '/')) := by
      rintro ⟨rfl, h⟩
      cases t with
      | nil => exact hdot rfl
      | cons y ys =>
        simp only [List.cons_append, List.head?_cons, Option.some.injEq, reduceCtorEq,
          false_or] at h
        exact ht (by simp [h])
    have h3 : ¬ (c = '.' ∧ (t ++ r).head? = some '.' ∧
        ((t ++ r).tail = [] ∨ (t ++ r).tail.head? = some '/')) := by
      rintro ⟨rfl, h, h'⟩
      cases t with
      | nil =>
        rcases hr with rfl | hr
        · simp at h
        · simp only [List.nil_append] at h
          rw [hr] at h
          simp at h
      | cons y ys =>
        simp only [List.cons_append, List.head?_cons, Option.some.injEq] at h
        subst h
        simp only [List.cons_append, List.tail_cons] at h'
        cases ys with
        | nil => exact hdotdot rfl
        | cons z zs =>
          simp only [List.cons_append, List.head?_cons, Option.some.injEq, reduceCtorEq,
            false_or] at h'
          exact ht (by simp [h'])
    rw [List.cons_append, cleanLoop, if_neg hc, if_neg h2, if_neg h3]
    have htake : (c :: (t ++ r)).takeWhile (fun x => x != '/') = c :: t := by
      rw [← List.cons_append, List.takeWhile_append_of_pos hall, hrt, List.append_nil]
    have hdrop : (c :: (t ++ r)).dropWhile (fun x => x != '/') = r := by
      rw [← List.cons_append, List.dropWhile_append_of_pos hall, hrd]
    simp only [htake, hdrop]
    by_cases h0 : st.out.length = 0
    · simp [h0]
    · simp [h0]

/-- `path.Join("blobs", a, h)` for plain elements `a` and `h`. -/
theorem Join_blobs_plain (a h : Str) (ha : plainElement a) (hh : plainElement h) :
    Join ["blobs".toList, a, h] = "blobs/".toList ++ a ++ '/' :: h := by
  have hb : plainElement "blobs".toList := by decide
  have ha0 : a ≠ [] := ha.1
  have hh0 : h ≠ [] := hh.1
  have hj : joinLoop ["blobs".toList, a, h] [] = "blobs".toList ++ ('/' :: (a ++ ('/' :: h))) := by
    have e1 : "blobs".toList = ['b', 'l', 'o', 'b', 's'] := rfl
    simp [joinLoop, e1, ha0, hh0]
  have hsum : ¬ (List.map List.length ["blobs".toList, a, h]).sum = 0 := by
    have e1 : "blobs".toList.length = 5 := rfl
    simp only [List.map_cons, List.map_nil, List.sum_cons, List.sum_nil, e1]
    omega
  unfold Join
  rw [if_neg hsum, hj]
  unfold Clean
  have hne : ¬ ("blobs".toList ++ ('/' :: (a ++ ('/' :: h)))) = [] := by
    have e1 : "blobs".toList = ['b', 'l', 'o', 'b', 's'] := rfl
    simp [e1]
  have hroot : ¬ (("blobs".toList ++ ('/' :: (a ++ ('/' :: h)))).head? = some '/') := by
    have e1 : "blobs".toList = ['b', 'l', 'o', 'b', 's'] := rfl
    simp [e1]
  rw [if_neg hne]
  simp only [hroot, if_false]
  obtain ⟨k, hk⟩ : ∃ k, ("blobs".toList ++ ('/' :: (a ++ ('/' :: h)))).length = k + 5 := by
    have e1 : "blobs".toList.length = 5 := rfl
    refine ⟨a.length + h.length + 2, ?_⟩
    simp only [List.length_append, List.length_cons, e1]
    omega
  have step3 : ∀ st : CleanState, cleanLoop false (k + 1) h st =
      { st with out := (if st.out.length = 0 then st.out else st.out ++ ['/']) ++ h } := by
    intro st
    have := cleanLoop_plain k h [] st hh (Or.inl rfl)
    rw [List.append_nil, cleanLoop_nil] at this
    exact this
  rw [hk, cleanLoop_plain (k + 4) "blobs".toList ('/' :: (a ++ ('/' :: h))) _ hb (Or.inr rfl),
    cleanLoop_slash, cleanLoop_plain (k + 2) a ('/' :: h) _ ha (Or.inr rfl), cleanLoop_slash,
    step3]
  have e1 : "blobs".toList = ['b', 'l', 'o', 'b', 's'] := rfl
  have e2 : "blobs/".toList = ['b', 'l', 'o', 'b', 's', '/'] := rfl
  simp [e1, e2]

/-! ## The OCI loop -/

/-- A digest without `:` is reported and not looked up. -/
theorem checkDescriptor_of_not_mem (found : Str → Bool) (i : Nat) (m : ociManifest) (ok : Bool)
    (h : ':' ∉ m.Digest) :
    checkDescriptor found i m ok =
      ([Line.manifest i m.Digest, Line.unexpectedDigest m.Digest], false) := by
  unfold checkDescriptor
  simp [SplitN_two_of_not_mem ':' m.Digest h]

/-- A digest with `:` is split at the first one and the joined path is looked
up. -/
theorem checkDescriptor_of_split (found : Str → Bool) (i : Nat) (a r : Str) (ok : Bool)
    (h : ':' ∉ a) :
    checkDescriptor found i ⟨a ++ ':' :: r⟩ ok =
      if found (Join ["blobs".toList, a, r]) = true then
        ([Line.manifest i (a ++ ':' :: r)], ok)
      else
        ([Line.manifest i (a ++ ':' :: r), Line.missingBlob (Join ["blobs".toList, a, r])],
          false) := by
  unfold checkDescriptor
  simp only [SplitN_two_append ':' a r h]
  have e0 : [a, r].getD 0 [] = a := rfl
  have e1 : [a, r].getD 1 [] = r := rfl
  have e2 : ¬ ([a, r].length ≠ 2) := by simp
  rw [if_neg e2]
  simp only [e0, e1]
  cases hf : found (Join ["blobs".toList, a, r]) <;> rfl

theorem descriptorOk_of_not_mem (found : Str → Bool) (m : ociManifest) (h : ':' ∉ m.Digest) :
    descriptorOk found m = false := by
  unfold descriptorOk
  rw [SplitN_two_of_not_mem ':' m.Digest h]

theorem descriptorOk_of_split (found : Str → Bool) (a r : Str) (h : ':' ∉ a) :
    descriptorOk found ⟨a ++ ':' :: r⟩ = found (Join ["blobs".toList, a, r]) := by
  unfold descriptorOk
  simp only [SplitN_two_append ':' a r h]

theorem checkDescriptor_fst (found : Str → Bool) (i : Nat) (m : ociManifest) (ok : Bool) :
    (checkDescriptor found i m ok).1 = descriptorLines found i m := by
  unfold descriptorLines
  by_cases h : ':' ∈ m.Digest
  · obtain ⟨a, r, hs, ha⟩ := exists_first_split ':' m.Digest h
    obtain ⟨d⟩ := m
    simp only at hs
    subst hs
    rw [checkDescriptor_of_split found i a r ok ha, checkDescriptor_of_split found i a r true ha]
    split_ifs <;> rfl
  · rw [checkDescriptor_of_not_mem found i m ok h, checkDescriptor_of_not_mem found i m true h]

theorem checkDescriptor_snd (found : Str → Bool) (i : Nat) (m : ociManifest) (ok : Bool) :
    (checkDescriptor found i m ok).2 = (ok && descriptorOk found m) := by
  by_cases h : ':' ∈ m.Digest
  · obtain ⟨a, r, hs, ha⟩ := exists_first_split ':' m.Digest h
    obtain ⟨d⟩ := m
    simp only at hs
    subst hs
    rw [checkDescriptor_of_split found i a r ok ha, descriptorOk_of_split found a r ha]
    cases hf : found (Join ["blobs".toList, a, r]) <;> simp
  · rw [checkDescriptor_of_not_mem found i m ok h, descriptorOk_of_not_mem found m h]
    simp

theorem checkDescriptors_fst (found : Str → Bool) (i : Nat) (ms : List ociManifest) (ok : Bool) :
    (checkDescriptors found i ms ok).1 = descriptorsLines found i ms := by
  induction ms generalizing i ok with
  | nil => rfl
  | cons m ms ih =>
    unfold checkDescriptors
    dsimp only
    rw [ih, checkDescriptor_fst, descriptorsLines]

theorem checkDescriptors_snd (found : Str → Bool) (i : Nat) (ms : List ociManifest) (ok : Bool) :
    (checkDescriptors found i ms ok).2 = (ok && ms.all (descriptorOk found)) := by
  induction ms generalizing i ok with
  | nil => simp [checkDescriptors]
  | cons m ms ih =>
    unfold checkDescriptors
    dsimp only
    rw [ih, checkDescriptor_snd]
    simp [Bool.and_assoc]

/-- The output of the OCI check, described directly. -/
theorem ociCheck_eq (found : Str → Bool) (idx : ociIndex) :
    ociCheck found idx =
      descriptorsLines found 0 idx.Manifests ++
        (if idx.Manifests.all (descriptorOk found) then [ociSuccess] else []) := by
  unfold ociCheck
  dsimp only
  rw [checkDescriptors_fst, checkDescriptors_snd]
  simp

/-- Every line of the loop is a line of some descriptor at some index. -/
theorem mem_descriptorsLines (found : Str → Bool) (i : Nat) (ms : List ociManifest) (ln : Line) :
    ln ∈ descriptorsLines found i ms ↔
      ∃ k m, ms.get? k = some m ∧ ln ∈ descriptorLines found (i + k) m := by
  induction ms generalizing i with
  | nil => simp [descriptorsLines]
  | cons m ms ih =>
    rw [descriptorsLines, List.mem_append, ih]
    constructor
    · rintro (h | ⟨k, m1, hk, h⟩)
      · exact ⟨0, m, rfl, h⟩
      · exact ⟨k + 1, m1, hk, by rw [← Nat.add_assoc, Nat.add_right_comm]; exact h⟩
    · rintro ⟨k, m1, hk, h⟩
      cases k with
      | zero =>
        simp only [List.get?_cons_zero, Option.some.injEq] at hk
        subst hk
        exact Or.inl h
      | succ k =>
        exact Or.inr ⟨k, m1, hk, by rw [Nat.add_right_comm, Nat.add_assoc]; exact h⟩

/-- The lines of one descriptor: the status line, then nothing, or the
`UNEXPECTED` line, or the `MISSING` line. -/
theorem descriptorLines_cases (found : Str → Bool) (i : Nat) (m : ociManifest) :
    (':' ∉ m.Digest ∧
      descriptorLines found i m = [Line.manifest i m.Digest, Line.unexpectedDigest m.Digest]) ∨
    (∃ a r, m.Digest = a ++ ':' :: r ∧ ':' ∉ a ∧
      descriptorLines found i m =
        Line.manifest i m.Digest ::
          (if found (Join ["blobs".toList, a, r]) = true then []
           else [Line.missingBlob (Join ["blobs".toList, a, r])])) := by
  unfold descriptorLines
  by_cases h : ':' ∈ m.Digest
  · right
    obtain ⟨a, r, hs, ha⟩ := exists_first_split ':' m.Digest h
    refine ⟨a, r, hs, ha, ?_⟩
    obtain ⟨d⟩ := m
    simp only at hs
    subst hs
    rw [checkDescriptor_of_split found i a r true ha]
    split_ifs <;> rfl
  · left
    exact ⟨h, by rw [checkDescriptor_of_not_mem found i m true h]⟩

theorem text_not_mem_descriptorsLines (found : Str → Bool) (i : Nat) (ms : List ociManifest)
    (t : String) : Line.text t ∉ descriptorsLines found i ms := by
  intro h
  obtain ⟨k, m, _, hm⟩ := (mem_descriptorsLines found i ms _).mp h
  rcases descriptorLines_cases found (i + k) m with ⟨_, e⟩ | ⟨a, r, _, _, e⟩
  · rw [e] at hm
    simp at hm
  · rw [e] at hm
    split_ifs at hm <;> simp at hm

/-! ## The run after the scan -/

theorem report_stdout_of_manifest (J : JsonDecoder) (st : ScanState)
    (manifest : List dockerManifestEntry) (hb : st.manifestBuf ≠ [])
    (hp : J.unmarshalManifest st.manifestBuf = some manifest) :
    ∃ rest, (report J st).stdout = dockerDetected :: dockerCheck st.found manifest ++ rest := by
  have hlen : st.manifestBuf.length > 0 := List.length_pos.mpr hb
  have hd : dockerPhase J st = .done (dockerDetected :: dockerCheck st.found manifest) := by
    unfold dockerPhase
    rw [if_pos hlen, hp]
  unfold report
  rw [hd]
  dsimp only
  cases ociPhase J st with
  | done out2 => exact ⟨out2 ++ noLayoutPhase st, by simp⟩
  | fatal out diag => exact ⟨out, by simp⟩

/-! ## Name normalization -/

theorem normalizeName_eq (n : Str) :
    normalizeName n = if ['.', '/'] <+: n then n.drop 2 else n := by
  unfold normalizeName TrimPrefix
  have h : "./".toList = ['.', '/'] := rfl
  rw [h]
  by_cases hp : ['.', '/'] <+: n
  · rw [if_pos hp, if_pos (List.isPrefixOf_iff_prefix.mpr hp)]
    rfl
  · rw [if_neg hp, if_neg (fun h => hp (List.isPrefixOf_iff_prefix.mp h))]

theorem normalizeName_dotslash (p : Str) : normalizeName ('.' :: '/' :: p) = p := by
  rw [normalizeName_eq, if_pos ⟨p, rfl⟩]
  rfl

theorem normalizeName_length_le (n : Str) : (normalizeName n).length ≤ n.length := by
  rw [normalizeName_eq]
  split_ifs
  · rw [List.length_drop]; omega
  · exact le_refl _

theorem normalizeName_ne_dotslash (p : Str) : normalizeName p ≠ '.' :: '/' :: p := by
  intro h
  have := normalizeName_length_le p
  rw [h] at this
  simp only [List.length_cons] at this
  omega

theorem dockerPhase_of_empty (J : JsonDecoder) (st : ScanState) (h : st.manifestBuf = []) :
    dockerPhase J st = .done [] := by
  unfold dockerPhase
  rw [h]
  rfl

theorem ociPhase_of_empty (J : JsonDecoder) (st : ScanState) (h : st.indexBuf = []) :
    ociPhase J st = .done [] := by
  unfold ociPhase
  rw [h]
  rfl

theorem dockerPhase_of_parsed (J : JsonDecoder) (st : ScanState)
    (manifest : List dockerManifestEntry) (hb : st.manifestBuf ≠ [])
    (hp : J.unmarshalManifest st.manifestBuf = some manifest) :
    dockerPhase J st = .done (dockerDetected :: dockerCheck st.found manifest) := by
  unfold dockerPhase
  rw [if_pos (List.length_pos.mpr hb), hp]

theorem dockerPhase_of_parse_error (J : JsonDecoder) (st : ScanState) (hb : st.manifestBuf ≠ [])
    (hp : J.unmarshalManifest st.manifestBuf = none) :
    dockerPhase J st = .fatal [dockerDetected] "parse manifest.json:" := by
  unfold dockerPhase
  rw [if_pos (List.length_pos.mpr hb), hp]

/-! ## Claims -/

/-- C1: when every `Config` path and every `Layers` path of the parsed Docker
manifest is the normalized name of some archive entry, the Docker-archive
validator prints no `MISSING` line and prints the success summary line
"All docker-archive referenced files present."; and a run whose manifest buffer
decodes to that manifest prints the validator's lines on standard output. -/
theorem docker_all_present_success (entries : List TarEntry)
    (manifest : List dockerManifestEntry)
    (h : ∀ e ∈ manifest, ∀ p ∈ e.refs, ∃ t ∈ entries, normalizeName t.name = p) :
    (∀ ln ∈ dockerCheck (scan entries).found manifest, ln.isMissing = false) ∧
    Line.text "All docker-archive referenced files present." ∈
      dockerCheck (scan entries).found manifest ∧
    (∀ J : JsonDecoder, (scan entries).manifestBuf ≠ [] →
      J.unmarshalManifest (scan entries).manifestBuf = some manifest →
      ∃ rest, (runTar J ⟨entries, .eof⟩).stdout =
        dockerDetected :: dockerCheck (scan entries).found manifest ++ rest) := by
  have hall : manifest.all
      (fun e => (scan entries).found e.Config && e.Layers.all (scan entries).found) = true := by
    rw [List.all_eq_true]
    intro e he
    rw [Bool.and_eq_true, List.all_eq_true]
    refine ⟨(scan_found entries _).mpr (h e he _ (by simp [dockerManifestEntry.refs])), ?_⟩
    intro l hl
    exact (scan_found entries _).mpr (h e he _ (by simp [dockerManifestEntry.refs, hl]))
  refine ⟨?_, ?_, ?_⟩
  · intro ln hln
    rw [dockerCheck_eq, hall, if_pos rfl, List.mem_append] at hln
    rcases hln with hln | hln
    · cases hm : ln.isMissing with
      | false => rfl
      | true =>
        obtain ⟨e, he, p, hp, hf, _⟩ := isMissing_of_mem_entriesLines _ _ _ _ hln hm
        have := (scan_found entries p).mpr (h e he p hp)
        rw [hf] at this
        exact absurd this (by decide)
    · rw [List.mem_singleton] at hln
      subst hln
      rfl
  · rw [dockerCheck_eq, hall, if_pos rfl]
    exact List.mem_append_right _ (List.mem_singleton.mpr rfl)
  · intro J hb hp
    exact report_stdout_of_manifest J (scan entries) manifest hb hp

theorem docker_all_present_success_witness :
    (∀ ln ∈ dockerCheck
        (scan [⟨"./config.json".toList, []⟩, ⟨"layer.tar".toList, []⟩]).found
        [⟨"config.json".toList, [], ["layer.tar".toList]⟩], ln.isMissing = false) ∧
    Line.text "All docker-archive referenced files present." ∈
      dockerCheck (scan [⟨"./config.json".toList, []⟩, ⟨"layer.tar".toList, []⟩]).found
        [⟨"config.json".toList, [], ["layer.tar".toList]⟩] :=
  have h := docker_all_present_success
    [⟨"./config.json".toList, []⟩, ⟨"layer.tar".toList, []⟩]
    [⟨"config.json".toList, [], ["layer.tar".toList]⟩] (by decide)
  ⟨h.1, h.2.1⟩

/-- C2: when the parsed Docker manifest references a path (a `Config` or an
element of `Layers`) that is not in the entry set, the validator's output
contains a `MISSING` line naming exactly that path (a `MISSING: config` line
for a `Config`, a `MISSING: layer` line for a layer), and the success summary
line is not printed. -/
theorem docker_missing_reported (found : Str → Bool) (manifest : List dockerManifestEntry)
    (e : dockerManifestEntry) (p : Str) (he : e ∈ manifest) (hp : p ∈ e.refs)
    (hf : found p = false) :
    (∃ ln ∈ dockerCheck found manifest, ln.isMissing = true ∧ ln.missingPath = some p) ∧
    (e.Config = p → Line.missingConfig p ∈ dockerCheck found manifest) ∧
    (p ∈ e.Layers → Line.missingLayer p ∈ dockerCheck found manifest) ∧
    Line.text "All docker-archive referenced files present." ∉ dockerCheck found manifest := by
  have hc : e.Config = p → Line.missingConfig p ∈ dockerCheck found manifest := by
    intro h
    rw [dockerCheck_eq]
    exact List.mem_append_left _
      ((mem_entriesLines_missingConfig found 0 manifest p).mpr ⟨e, he, h, hf⟩)
  have hl : p ∈ e.Layers → Line.missingLayer p ∈ dockerCheck found manifest := by
    intro h
    rw [dockerCheck_eq]
    exact List.mem_append_left _
      ((mem_entriesLines_missingLayer found 0 manifest p).mpr ⟨e, he, h, hf⟩)
  refine ⟨?_, hc, hl, ?_⟩
  · rw [dockerManifestEntry.refs, List.mem_cons] at hp
    rcases hp with hp | hp
    · exact ⟨_, hc hp.symm, rfl, rfl⟩
    · exact ⟨_, hl hp, rfl, rfl⟩
  · have hall : manifest.all (fun e => found e.Config && e.Layers.all found) = false := by
      rw [List.all_eq_false]
      refine ⟨e, he, ?_⟩
      rw [dockerManifestEntry.refs, List.mem_cons] at hp
      rcases hp with hp | hp
      · subst hp; simp [hf]
      · simp only [Bool.and_eq_true, List.all_eq_true, not_and, Bool.not_eq_true]
        intro _ hall
        have := hall p hp
        rw [hf] at this
        exact absurd this (by decide)
    rw [dockerCheck_eq, hall]
    simp only [Bool.false_eq_true, if_false, List.append_nil]
    exact text_not_mem_entriesLines found 0 manifest _

theorem docker_missing_reported_witness :
    Line.missingLayer "b.tar".toList ∈
      dockerCheck (scan [⟨"c.json".toList, []⟩, ⟨"a.tar".toList, []⟩]).found
        [⟨"c.json".toList, [], ["a.tar".toList, "b.tar".toList]⟩] ∧
    Line.text "All docker-archive referenced files present." ∉
      dockerCheck (scan [⟨"c.json".toList, []⟩, ⟨"a.tar".toList, []⟩]).found
        [⟨"c.json".toList, [], ["a.tar".toList, "b.tar".toList]⟩] :=
  have h := docker_missing_reported
    (scan [⟨"c.json".toList, []⟩, ⟨"a.tar".toList, []⟩]).found
    [⟨"c.json".toList, [], ["a.tar".toList, "b.tar".toList]⟩]
    ⟨"c.json".toList, [], ["a.tar".toList, "b.tar".toList]⟩ "b.tar".toList
    (by decide) (by decide) (by decide)
  ⟨h.2.2.1 (by decide), h.2.2.2⟩

/-- C3 (counterexample): the archive has the entry `config.json`, the manifest
references `./config.json`; the reference is reported missing, so the two are
not treated as the same file. -/
theorem dotslash_reference_not_matched :
    Line.missingConfig "./config.json".toList ∈
      dockerCheck (scan [⟨"config.json".toList, []⟩]).found
        [⟨"./config.json".toList, [], []⟩] := by
  decide

/-- C3 (amended): only archive entry names are normalized, manifest references
are looked up as written.  For every path `p`, an archive entry named `./p`
matches the manifest reference `p` (no `MISSING` line names `p`), and an archive
whose only entry is named `p` does not match the reference `./p` (the line
`MISSING: config "./p"` is printed). -/
theorem dotslash_entry_matches_reference (p : Str) :
    (∀ (entries : List TarEntry) (manifest : List dockerManifestEntry),
      (∃ t ∈ entries, t.name = '.' :: '/' :: p) →
      ∀ ln ∈ dockerCheck (scan entries).found manifest, ln.missingPath ≠ some p) ∧
    (∀ (content : Str) (tags layers : List Str),
      Line.missingConfig ('.' :: '/' :: p) ∈
        dockerCheck (scan [⟨p, content⟩]).found [⟨'.' :: '/' :: p, tags, layers⟩]) := by
  constructor
  · rintro entries manifest ⟨t, ht, hn⟩ ln hln hmp
    have hfound : (scan entries).found p = true :=
      (scan_found entries p).mpr ⟨t, ht, by rw [hn, normalizeName_dotslash]⟩
    rw [dockerCheck_eq, List.mem_append] at hln
    rcases hln with hln | hln
    · have hm : ln.isMissing = true := by
        cases ln <;> simp [Line.missingPath] at hmp <;> rfl
      obtain ⟨e, _, q, _, hf, hq⟩ := isMissing_of_mem_entriesLines _ _ _ _ hln hm
      rw [hmp] at hq
      cases hq
      rw [hfound] at hf
      exact absurd hf (by decide)
    · split_ifs at hln
      · rw [List.mem_singleton] at hln
        subst hln
        simp [dockerSuccess, Line.missingPath] at hmp
      · simp at hln
  · intro content tags layers
    have hf : (scan [⟨p, content⟩]).found ('.' :: '/' :: p) = false := by
      cases h : (scan [⟨p, content⟩]).found ('.' :: '/' :: p) with
      | false => rfl
      | true =>
        obtain ⟨t, ht, hn⟩ := (scan_found _ _).mp h
        rw [List.mem_singleton] at ht
        subst ht
        exact absurd hn (normalizeName_ne_dotslash p)
    rw [dockerCheck_eq]
    exact List.mem_append_left _
      ((mem_entriesLines_missingConfig _ 0 _ _).mpr ⟨_, List.mem_singleton.mpr rfl, rfl, hf⟩)

theorem dotslash_entry_matches_reference_witness :
    ∀ ln ∈ dockerCheck (scan [⟨"./config.json".toList, []⟩]).found
        [⟨"config.json".toList, [], []⟩], ln.missingPath ≠ some "config.json".toList :=
  (dotslash_entry_matches_reference "config.json".toList).1
    [⟨"./config.json".toList, []⟩] [⟨"config.json".toList, [], []⟩]
    ⟨⟨"./config.json".toList, []⟩, by decide, by decide⟩

/-- C9: name normalization strips exactly one literal leading `./`: the name
without its first two characters when it starts with `./`, the name itself
otherwise; `././a` becomes `./a` (no repeated stripping) and `a/./b` is
unchanged. -/
theorem normalizeName_strips_one_leading_dotslash :
    (∀ n : Str, normalizeName n = if ['.', '/'] <+: n then n.drop 2 else n) ∧
    (∀ p : Str, normalizeName ('.' :: '/' :: p) = p) ∧
    normalizeName "././a".toList = "./a".toList ∧
    normalizeName "a/./b".toList = "a/./b".toList :=
  ⟨normalizeName_eq, normalizeName_dotslash, by decide, by decide⟩

/-- C4 (counterexample): the digest `sha256:a:b` has two `:` and is accepted:
it is split at the first `:`, the path `blobs/sha256/a:b` is looked up, and
the success summary is printed when that path is an entry (a `MISSING` line,
and no `UNEXPECTED` line, when it is not). -/
theorem digest_with_two_colons_accepted :
    ociCheck (scan [⟨"blobs/sha256/a:b".toList, []⟩]).found ⟨[⟨"sha256:a:b".toList⟩]⟩ =
      [Line.manifest 0 "sha256:a:b".toList,
       Line.text "All OCI index referenced blobs present."] ∧
    ociCheck (fun _ => false) ⟨[⟨"sha256:a:b".toList⟩]⟩ =
      [Line.manifest 0 "sha256:a:b".toList, Line.missingBlob "blobs/sha256/a:b".toList] := by
  decide

/-- C4 (amended): a descriptor whose digest contains no `:` gets the
"unexpected digest format" line and no membership check (its lines are the
status line and the `UNEXPECTED` line, and `ok` becomes false), so the index
check prints that line and not the success summary, and an index of such
descriptors prints no `MISSING` line; a digest is accepted (no `UNEXPECTED`
line) exactly when it contains at least one `:`. -/
theorem digest_without_colon_unexpected (found : Str → Bool) :
    (∀ (i : Nat) (m : ociManifest) (ok : Bool), ':' ∉ m.Digest →
      checkDescriptor found i m ok =
        ([Line.manifest i m.Digest, Line.unexpectedDigest m.Digest], false)) ∧
    (∀ (idx : ociIndex) (m : ociManifest), m ∈ idx.Manifests → ':' ∉ m.Digest →
      Line.unexpectedDigest m.Digest ∈ ociCheck found idx ∧
      Line.text "All OCI index referenced blobs present." ∉ ociCheck found idx) ∧
    (∀ idx : ociIndex, (∀ m ∈ idx.Manifests, ':' ∉ m.Digest) →
      ∀ ln ∈ ociCheck found idx, ln.isMissing = false) ∧
    (∀ (i : Nat) (m : ociManifest) (ok : Bool),
      Line.unexpectedDigest m.Digest ∈ (checkDescriptor found i m ok).1 ↔ ':' ∉ m.Digest) := by
  refine ⟨fun i m ok h => checkDescriptor_of_not_mem found i m ok h, ?_, ?_, ?_⟩
  · intro idx m hm hd
    have hall : idx.Manifests.all (descriptorOk found) = false := by
      rw [List.all_eq_false]
      exact ⟨m, hm, by rw [descriptorOk_of_not_mem found m hd]; decide⟩
    rw [ociCheck_eq, hall]
    simp only [Bool.false_eq_true, if_false, List.append_nil]
    refine ⟨?_, text_not_mem_descriptorsLines found 0 _ _⟩
    obtain ⟨k, hk⟩ := List.get?_of_mem hm
    refine (mem_descriptorsLines found 0 _ _).mpr ⟨k, m, hk, ?_⟩
    unfold descriptorLines
    rw [checkDescriptor_of_not_mem found _ m true hd]
    simp
  · intro idx hall ln hln
    rw [ociCheck_eq, List.mem_append] at hln
    rcases hln with hln | hln
    · obtain ⟨k, m, hk, hm⟩ := (mem_descriptorsLines found 0 _ _).mp hln
      have hmem : m ∈ idx.Manifests := List.get?_mem hk
      unfold descriptorLines at hm
      rw [checkDescriptor_of_not_mem found _ m true (hall m hmem)] at hm
      simp only [List.mem_cons, List.mem_singleton, List.not_mem_nil, or_false] at hm
      rcases hm with rfl | rfl <;> rfl
    · split_ifs at hln
      · rw [List.mem_singleton] at hln
        subst hln
        rfl
      · simp at hln
  · intro i m ok
    rw [checkDescriptor_fst]
    constructor
    · intro h hc
      rcases descriptorLines_cases found i m with ⟨hn, _⟩ | ⟨a, r, _, _, e⟩
      · exact hn hc
      · rw [e] at h
        split_ifs at h <;> simp at h
    · intro h
      unfold descriptorLines
      rw [checkDescriptor_of_not_mem found i m true h]
      simp

theorem digest_without_colon_unexpected_witness :
    Line.unexpectedDigest "sha256deadbeef".toList ∈
      ociCheck (fun _ => true) ⟨[⟨"sha256deadbeef".toList⟩]⟩ ∧
    Line.text "All OCI index referenced blobs present." ∉
      ociCheck (fun _ => true) ⟨[⟨"sha256deadbeef".toList⟩]⟩ :=
  (digest_without_colon_unexpected (fun _ => true)).2.1
    ⟨[⟨"sha256deadbeef".toList⟩]⟩ ⟨"sha256deadbeef".toList⟩ (by decide) (by decide)

/-- C5 (counterexample): for the digest `sha256:./deadbeef` the payload is
`./deadbeef`, and the path `blobs/sha256/./deadbeef` is not in the entry set of
an archive whose only entry is `blobs/sha256/deadbeef`; yet the descriptor is
reported present, and against an empty archive the `MISSING` line names
`blobs/sha256/deadbeef`. -/
theorem oci_path_is_cleaned :
    SplitN "sha256:./deadbeef".toList ':' 2 = ["sha256".toList, "./deadbeef".toList] ∧
    (scan [⟨"blobs/sha256/deadbeef".toList, []⟩]).found "blobs/sha256/./deadbeef".toList = false ∧
    ociCheck (scan [⟨"blobs/sha256/deadbeef".toList, []⟩]).found
        ⟨[⟨"sha256:./deadbeef".toList⟩]⟩ =
      [Line.manifest 0 "sha256:./deadbeef".toList,
       Line.text "All OCI index referenced blobs present."] ∧
    ociCheck (scan []).found ⟨[⟨"sha256:./deadbeef".toList⟩]⟩ =
      [Line.manifest 0 "sha256:./deadbeef".toList,
       Line.missingBlob "blobs/sha256/deadbeef".toList] := by
  decide

/-- C5 (amended): for a digest that splits into algorithm `a` and payload `h`,
the path looked up is `path.Join("blobs", a, h)`; the descriptor passes iff
that path is in the entry set, and otherwise a `MISSING` line naming that path
is printed; the path is the string `blobs/` ++ a ++ `/` ++ h whenever `a` and
`h` are plain path elements (not empty, no `/`, neither `.` nor `..`). -/
theorem oci_expected_path (found : Str → Bool) (i : Nat) (a h : Str) (ok : Bool)
    (ha : ':' ∉ a) :
    SplitN (a ++ ':' :: h) ':' 2 = [a, h] ∧
    (found (Join ["blobs".toList, a, h]) = true →
      checkDescriptor found i ⟨a ++ ':' :: h⟩ ok = ([Line.manifest i (a ++ ':' :: h)], ok)) ∧
    (found (Join ["blobs".toList, a, h]) = false →
      checkDescriptor found i ⟨a ++ ':' :: h⟩ ok =
        ([Line.manifest i (a ++ ':' :: h), Line.missingBlob (Join ["blobs".toList, a, h])],
          false)) ∧
    (Line.text "All OCI index referenced blobs present." ∈
        ociCheck found ⟨[⟨a ++ ':' :: h⟩]⟩ ↔ found (Join ["blobs".toList, a, h]) = true) ∧
    (plainElement a → plainElement h →
      Join ["blobs".toList, a, h] = "blobs/".toList ++ a ++ '/' :: h) := by
  refine ⟨SplitN_two_append ':' a h ha, ?_, ?_, ?_, Join_blobs_plain a h⟩
  · intro hf
    rw [checkDescriptor_of_split found i a h ok ha, if_pos hf]
  · intro hf
    rw [checkDescriptor_of_split found i a h ok ha, if_neg (by rw [hf]; decide)]
  · rw [ociCheck_eq]
    simp only [List.all_cons, List.all_nil, Bool.and_true, descriptorOk_of_split found a h ha,
      List.mem_append]
    constructor
    · rintro (hm | hm)
      · exact absurd hm (text_not_mem_descriptorsLines found 0 _ _)
      · split_ifs at hm with hf
        · exact hf
        · simp at hm
    · intro hf
      right
      rw [if_pos hf]
      exact List.mem_singleton.mpr rfl

theorem oci_expected_path_witness :
    checkDescriptor (fun _ => false) 0 ⟨"sha256".toList ++ ':' :: "deadbeef".toList⟩ true =
      ([Line.manifest 0 ("sha256".toList ++ ':' :: "deadbeef".toList),
        Line.missingBlob (Join ["blobs".toList, "sha256".toList, "deadbeef".toList])], false) ∧
    Join ["blobs".toList, "sha256".toList, "deadbeef".toList] =
      "blobs/".toList ++ "sha256".toList ++ '/' :: "deadbeef".toList :=
  have h := oci_expected_path (fun _ => false) 0 "sha256".toList "deadbeef".toList true
    (by decide)
  ⟨h.2.2.1 rfl, h.2.2.2.2 (by decide) (by decide)⟩

/-- C6 (counterexample): with a missing `Config` the Docker validator prints the
status line and the `MISSING` line and nothing else, and with a missing blob
the OCI validator does the same: no final summary line is printed. -/
theorem no_summary_line_on_failure :
    dockerCheck (fun _ => false) [⟨"c.json".toList, [], []⟩] =
      [Line.entry 0 [] "c.json".toList, Line.missingConfig "c.json".toList] ∧
    ociCheck (fun _ => false) ⟨[⟨"sha256:ab".toList⟩]⟩ =
      [Line.manifest 0 "sha256:ab".toList, Line.missingBlob "blobs/sha256/ab".toList] := by
  decide

/-- C6 (amended): a validator prints its summary line only on success.  When
every reference is present the success line is printed exactly once and is the
last line of the validator's output; when some finding was recorded the
validator prints no summary line at all (none of its lines is a constant
line). -/
theorem summary_line_only_on_success (found : Str → Bool) :
    (∀ manifest : List dockerManifestEntry,
      (∀ e ∈ manifest, ∀ p ∈ e.refs, found p = true) →
      (dockerCheck found manifest).getLast? = some dockerSuccess ∧
      (dockerCheck found manifest).count dockerSuccess = 1) ∧
    (∀ manifest : List dockerManifestEntry,
      (∃ e ∈ manifest, ∃ p ∈ e.refs, found p = false) →
      ∀ t : String, Line.text t ∉ dockerCheck found manifest) ∧
    (∀ idx : ociIndex, (∀ m ∈ idx.Manifests, descriptorOk found m = true) →
      (ociCheck found idx).getLast? = some ociSuccess ∧
      (ociCheck found idx).count ociSuccess = 1) ∧
    (∀ idx : ociIndex, (∃ m ∈ idx.Manifests, descriptorOk found m = false) →
      ∀ t : String, Line.text t ∉ ociCheck found idx) := by
  refine ⟨?_, ?_, ?_, ?_⟩
  · intro manifest h
    have hall : manifest.all (fun e => found e.Config && e.Layers.all found) = true := by
      rw [List.all_eq_true]
      intro e he
      rw [Bool.and_eq_true, List.all_eq_true]
      exact ⟨h e he _ (by simp [dockerManifestEntry.refs]),
        fun l hl => h e he _ (by simp [dockerManifestEntry.refs, hl])⟩
    rw [dockerCheck_eq, hall, if_pos rfl]
    refine ⟨List.getLast?_concat _, ?_⟩
    have h0 : List.count dockerSuccess (entriesLines found 0 manifest) = 0 :=
      List.count_eq_zero.mpr (text_not_mem_entriesLines found 0 manifest _)
    rw [List.count_append, h0]
    simp
  · rintro manifest ⟨e, he, p, hp, hf⟩ t
    have hall : manifest.all (fun e => found e.Config && e.Layers.all found) = false := by
      rw [List.all_eq_false]
      refine ⟨e, he, ?_⟩
      rw [dockerManifestEntry.refs, List.mem_cons] at hp
      rcases hp with hp | hp
      · subst hp; simp [hf]
      · simp only [Bool.and_eq_true, List.all_eq_true, not_and, Bool.not_eq_true]
        intro _ hall
        have := hall p hp
        rw [hf] at this
        exact absurd this (by decide)
    rw [dockerCheck_eq, hall]
    simp only [Bool.false_eq_true, if_false, List.append_nil]
    exact text_not_mem_entriesLines found 0 manifest t
  · intro idx h
    have hall : idx.Manifests.all (descriptorOk found) = true := by
      rw [List.all_eq_true]
      exact h
    rw [ociCheck_eq, hall, if_pos rfl]
    refine ⟨List.getLast?_concat _, ?_⟩
    have h0 : List.count ociSuccess (descriptorsLines found 0 idx.Manifests) = 0 :=
      List.count_eq_zero.mpr (text_not_mem_descriptorsLines found 0 idx.Manifests _)
    rw [List.count_append, h0]
    simp
  · rintro idx ⟨m, hm, hf⟩ t
    have hall : idx.Manifests.all (descriptorOk found) = false := by
      rw [List.all_eq_false]
      exact ⟨m, hm, by rw [hf]; decide⟩
    rw [ociCheck_eq, hall]
    simp only [Bool.false_eq_true, if_false, List.append_nil]
    exact text_not_mem_descriptorsLines found 0 idx.Manifests t

theorem summary_line_only_on_success_witness :
    ((dockerCheck (fun _ => true) [⟨"c.json".toList, [], ["l.tar".toList]⟩]).getLast? =
        some dockerSuccess ∧
      (dockerCheck (fun _ => true) [⟨"c.json".toList, [], ["l.tar".toList]⟩]).count
        dockerSuccess = 1) ∧
    (∀ t : String, Line.text t ∉ ociCheck (fun _ => false) ⟨[⟨"sha256:ab".toList⟩]⟩) :=
  ⟨(summary_line_only_on_success (fun _ => true)).1
      [⟨"c.json".toList, [], ["l.tar".toList]⟩] (by decide),
   (summary_line_only_on_success (fun _ => false)).2.2.2
      ⟨[⟨"sha256:ab".toList⟩]⟩ ⟨⟨"sha256:ab".toList⟩, by decide, by decide⟩⟩

/-- C7: when no entry of the archive has a normalized name with basename
`manifest.json` or `index.json`, the standard output of the run is exactly the
one line "No manifest.json or index.json detected; tar may have an unexpected
layout.", nothing is written to standard error, and the exit code is 0. -/
theorem unclassified_layout (J : JsonDecoder) (entries : List TarEntry)
    (h : ∀ e ∈ entries, Base (normalizeName e.name) ≠ "manifest.json".toList ∧
      Base (normalizeName e.name) ≠ "index.json".toList) :
    runTar J ⟨entries, .eof⟩ =
      { stdout := [Line.text
          "No manifest.json or index.json detected; tar may have an unexpected layout."],
        stderr := [], exitCode := 0 } := by
  have hm : (scan entries).manifestBuf = [] := by
    rw [scan_manifestBuf]
    exact lastCaptured_of_no_match _ _ (fun e he => (h e he).1)
  have hi : (scan entries).indexBuf = [] := by
    rw [scan_indexBuf]
    exact lastCaptured_of_no_match _ _ (fun e he => (h e he).2)
  unfold runTar
  dsimp only
  unfold report
  rw [dockerPhase_of_empty J _ hm, ociPhase_of_empty J _ hi]
  dsimp only
  unfold noLayoutPhase
  rw [hm, hi]
  rfl

theorem unclassified_layout_witness :
    runTar goJson ⟨[⟨"./a/b.tar".toList, "x".toList⟩, ⟨"manifest.json.bak".toList, []⟩], .eof⟩ =
      { stdout := [Line.text
          "No manifest.json or index.json detected; tar may have an unexpected layout."],
        stderr := [], exitCode := 0 } :=
  unclassified_layout goJson
    [⟨"./a/b.tar".toList, "x".toList⟩, ⟨"manifest.json.bak".toList, []⟩] (by decide)

/-- C8 (counterexample): the archive holds `manifest.json` with content `x`
(not JSON) and `index.json` with content `{}`.  The run stops with exit code 2
after the Docker "Detected" line and prints no OCI line, while the same entry
set and index buffer without a manifest buffer give the OCI "Detected" line and
the OCI success summary with exit code 0. -/
theorem docker_parse_error_suppresses_oci :
    runTar goJson ⟨[⟨"manifest.json".toList, "x".toList⟩,
        ⟨"index.json".toList, "\x7b\x7d".toList⟩], .eof⟩ =
      { stdout := [dockerDetected], stderr := ["parse manifest.json:"], exitCode := 2 } ∧
    report goJson { scan [⟨"manifest.json".toList, "x".toList⟩,
        ⟨"index.json".toList, "\x7b\x7d".toList⟩] with manifestBuf := [] } =
      { stdout := [ociDetected, ociSuccess], stderr := [], exitCode := 0 } := by
  decide

/-- C8 (amended): when both buffers are non-empty and the manifest buffer
decodes, both validators run: the run prints the Docker validator's lines and
then exactly what it prints for the same entry set and index buffer with no
manifest buffer, with the same diagnostics and exit code.  When the manifest
buffer does not decode, the run exits with code 2 right after the Docker
"Detected" line and the OCI validator does not run. -/
theorem oci_check_after_docker_check (J : JsonDecoder) (st : ScanState)
    (hm : st.manifestBuf ≠ []) (hi : st.indexBuf ≠ []) :
    (∀ manifest, J.unmarshalManifest st.manifestBuf = some manifest →
      (report J st).stdout =
        (dockerDetected :: dockerCheck st.found manifest) ++
          (report J { st with manifestBuf := [] }).stdout ∧
      (report J st).stderr = (report J { st with manifestBuf := [] }).stderr ∧
      (report J st).exitCode = (report J { st with manifestBuf := [] }).exitCode) ∧
    (J.unmarshalManifest st.manifestBuf = none →
      report J st =
        { stdout := [dockerDetected], stderr := ["parse manifest.json:"], exitCode := 2 }) := by
  have hnl : noLayoutPhase st = [] := by
    unfold noLayoutPhase
    rw [if_neg]
    rintro ⟨h, _⟩
    exact hi (List.length_eq_zero.mp h)
  have hnl2 : noLayoutPhase { st with manifestBuf := [] } = [] := by
    unfold noLayoutPhase
    rw [if_neg]
    rintro ⟨h, _⟩
    exact hi (List.length_eq_zero.mp h)
  have ho : ociPhase J { st with manifestBuf := [] } = ociPhase J st := rfl
  constructor
  · intro manifest hp
    unfold report
    rw [dockerPhase_of_parsed J st manifest hm hp,
      dockerPhase_of_empty J { st with manifestBuf := [] } rfl, ho]
    cases ociPhase J st with
    | done out2 => simp [hnl, hnl2]
    | fatal out diag => simp
  · intro hp
    unfold report
    rw [dockerPhase_of_parse_error J st hm hp]

theorem oci_check_after_docker_check_witness :
    (report goJson (scan [⟨"manifest.json".toList, "[]".toList⟩,
        ⟨"index.json".toList, "\x7b\x7d".toList⟩])).stdout =
      (dockerDetected :: dockerCheck (scan [⟨"manifest.json".toList, "[]".toList⟩,
        ⟨"index.json".toList, "\x7b\x7d".toList⟩]).found []) ++
        (report goJson { scan [⟨"manifest.json".toList, "[]".toList⟩,
          ⟨"index.json".toList, "\x7b\x7d".toList⟩] with manifestBuf := [] }).stdout :=
  ((oci_check_after_docker_check goJson (scan [⟨"manifest.json".toList, "[]".toList⟩,
      ⟨"index.json".toList, "\x7b\x7d".toList⟩]) (by decide) (by decide)).1 []
    (by decide)).1

/-- C10: after the scan the Docker-manifest buffer is the content of the last
entry, in stream order, whose normalized name has basename `manifest.json`, and
the OCI-index buffer is the content of the last entry whose normalized name has
basename `index.json`, at any directory depth; a buffer is empty when there is
no such entry. -/
theorem last_match_wins (entries : List TarEntry) :
    (scan entries).manifestBuf = lastCaptured "manifest.json".toList entries ∧
    (scan entries).indexBuf = lastCaptured "index.json".toList entries ∧
    ((∀ e ∈ entries, Base (normalizeName e.name) ≠ "manifest.json".toList) →
      (scan entries).manifestBuf = []) ∧
    ((∀ e ∈ entries, Base (normalizeName e.name) ≠ "index.json".toList) →
      (scan entries).indexBuf = []) ∧
    (∀ (before after : List TarEntry) (e : TarEntry),
      Base (normalizeName e.name) = "manifest.json".toList →
      (∀ x ∈ after, Base (normalizeName x.name) ≠ "manifest.json".toList) →
      (scan (before ++ e :: after)).manifestBuf = e.content) ∧
    (∀ (before after : List TarEntry) (e : TarEntry),
      Base (normalizeName e.name) = "index.json".toList →
      (∀ x ∈ after, Base (normalizeName x.name) ≠ "index.json".toList) →
      (scan (before ++ e :: after)).indexBuf = e.content) := by
  have key : ∀ (base : Str) (before after : List TarEntry) (e : TarEntry),
      Base (normalizeName e.name) = base →
      (∀ x ∈ after, Base (normalizeName x.name) ≠ base) →
      lastCaptured base (before ++ e :: after) = e.content := by
    intro base before after e he hafter
    unfold lastCaptured
    have hnil : after.filter (fun x => decide (Base (normalizeName x.name) = base)) = [] := by
      rw [List.filter_eq_nil_iff]
      intro x hx
      simpa using hafter x hx
    rw [List.filter_append, List.filter_cons_of_pos (by simpa using he), hnil,
      List.getLast?_concat]
  refine ⟨scan_manifestBuf entries, scan_indexBuf entries, ?_, ?_, ?_, ?_⟩
  · intro h
    rw [scan_manifestBuf]
    exact lastCaptured_of_no_match _ _ h
  · intro h
    rw [scan_indexBuf]
    exact lastCaptured_of_no_match _ _ h
  · intro before after e he hafter
    rw [scan_manifestBuf]
    exact key _ before after e he hafter
  · intro before after e he hafter
    rw [scan_indexBuf]
    exact key _ before after e he hafter

theorem last_match_wins_witness :
    (scan ([⟨"manifest.json".toList, "one".toList⟩] ++
      ⟨"./sub/dir/manifest.json".toList, "two".toList⟩ ::
        [⟨"layer.tar".toList, "three".toList⟩])).manifestBuf = "two".toList :=
  (last_match_wins [⟨"layer.tar".toList, "three".toList⟩]).2.2.2.2.1
    [⟨"manifest.json".toList, "one".toList⟩]
    [⟨"layer.tar".toList, "three".toList⟩] ⟨"./sub/dir/manifest.json".toList, "two".toList⟩
    (by decide) (by decide)

/-! ## Findings in the output -/

theorem report_exitCode_of_parsed (J : JsonDecoder) (st : ScanState)
    (hm : st.manifestBuf ≠ [] → J.unmarshalManifest st.manifestBuf ≠ none)
    (hi : st.indexBuf ≠ [] → J.unmarshalIndex st.indexBuf ≠ none) :
    (report J st).exitCode = 0 ∧ (report J st).stderr = [] := by
  have hd : ∃ out, dockerPhase J st = .done out := by
    unfold dockerPhase
    by_cases hb : st.manifestBuf.length > 0
    · rw [if_pos hb]
      cases hp : J.unmarshalManifest st.manifestBuf with
      | none => exact absurd hp (hm (List.length_pos.mp hb))
      | some entries => exact ⟨_, rfl⟩
    · rw [if_neg hb]
      exact ⟨_, rfl⟩
  have ho : ∃ out, ociPhase J st = .done out := by
    unfold ociPhase
    by_cases hb : st.indexBuf.length > 0
    · rw [if_pos hb]
      cases hp : J.unmarshalIndex st.indexBuf with
      | none => exact absurd hp (hi (List.length_pos.mp hb))
      | some idx => exact ⟨_, rfl⟩
    · rw [if_neg hb]
      exact ⟨_, rfl⟩
  obtain ⟨out1, h1⟩ := hd
  obtain ⟨out2, h2⟩ := ho
  unfold report
  rw [h1]
  dsimp only
  rw [h2]
  exact ⟨rfl, rfl⟩

theorem filter_isFinding_entriesLines (found : Str → Bool) (i : Nat)
    (es : List dockerManifestEntry) :
    (entriesLines found i es).filter Line.isFinding =
      es.flatMap (fun e =>
        (if found e.Config then [] else [Line.missingConfig e.Config]) ++
          (e.Layers.filter (fun l => !found l)).map Line.missingLayer) := by
  induction es generalizing i with
  | nil => rfl
  | cons e es ih =>
    rw [entriesLines, List.filter_append, ih, List.flatMap_cons, entryLines]
    congr 1
    have hl : ∀ ls : List Str,
        (ls.map Line.missingLayer).filter Line.isFinding = ls.map Line.missingLayer := by
      intro ls
      rw [List.filter_eq_self]
      intro a ha
      obtain ⟨l, _, rfl⟩ := List.mem_map.mp ha
      rfl
    by_cases hc : found e.Config = true
    · simp only [hc, if_true, List.nil_append]
      rw [List.filter_cons_of_neg (by simp [Line.isFinding]), hl]
    · simp only [hc, if_false]
      rw [List.filter_cons_of_neg (by simp [Line.isFinding]), List.filter_append, hl]
      rfl

theorem filterMap_missingPath_entriesLines (found : Str → Bool) (i : Nat)
    (es : List dockerManifestEntry) :
    (entriesLines found i es).filterMap Line.missingPath =
      (allRefs es).filter (fun p => !found p) := by
  induction es generalizing i with
  | nil => rfl
  | cons e es ih =>
    have hl : ∀ ls : List Str, (ls.map Line.missingLayer).filterMap Line.missingPath = ls := by
      intro ls
      induction ls with
      | nil => rfl
      | cons l ls ihl =>
        rw [List.map_cons, List.filterMap_cons_some (by rfl : (Line.missingLayer l).missingPath = some l), ihl]
    have hcons : allRefs (e :: es) = (e.Config :: e.Layers) ++ allRefs es := by
      unfold allRefs
      rw [List.flatMap_cons]
      rfl
    rw [entriesLines, List.filterMap_append, ih, hcons, List.filter_append, entryLines]
    congr 1
    by_cases hc : found e.Config = true
    · simp only [hc, if_true, List.nil_append]
      rw [List.filterMap_cons_none (by rfl), hl, List.filter_cons_of_neg (by simp [hc])]
    · simp only [hc, if_false]
      rw [List.filterMap_cons_none (by rfl), List.filterMap_append, hl,
        List.filter_cons_of_pos (by simpa using hc)]
      rfl

theorem descriptorLines_filter_isFinding (found : Str → Bool) (i : Nat) (m : ociManifest) :
    (descriptorLines found i m).filter Line.isFinding = (descriptorFinding found m).toList := by
  rcases descriptorLines_cases found i m with ⟨hn, e⟩ | ⟨a, r, hd, ha, e⟩
  · rw [e]
    unfold descriptorFinding
    rw [SplitN_two_of_not_mem ':' m.Digest hn]
    rfl
  · rw [e]
    unfold descriptorFinding
    rw [hd, SplitN_two_append ':' a r ha]
    dsimp only
    by_cases hf : found (Join ["blobs".toList, a, r]) = true
    · rw [if_pos hf, if_pos hf]
      rfl
    · rw [if_neg hf, if_neg hf]
      rfl

theorem filter_isFinding_descriptorsLines (found : Str → Bool) (i : Nat)
    (ms : List ociManifest) :
    (descriptorsLines found i ms).filter Line.isFinding =
      ms.filterMap (descriptorFinding found) := by
  induction ms generalizing i with
  | nil => rfl
  | cons m ms ih =>
    rw [descriptorsLines, List.filter_append, ih, descriptorLines_filter_isFinding]
    cases h : descriptorFinding found m with
    | none => rw [List.filterMap_cons_none h]; rfl
    | some ln => rw [List.filterMap_cons_some h]; rfl

/-- C11: when the scan ends at `io.EOF` and every captured buffer decodes, the
run ends with exit code 0 and nothing on standard error, whether or not a
`MISSING` or `UNEXPECTED digest format` line was printed. -/
theorem findings_do_not_change_exit_code (J : JsonDecoder) (entries : List TarEntry)
    (hm : (scan entries).manifestBuf ≠ [] →
      J.unmarshalManifest (scan entries).manifestBuf ≠ none)
    (hi : (scan entries).indexBuf ≠ [] → J.unmarshalIndex (scan entries).indexBuf ≠ none) :
    (runTar J ⟨entries, .eof⟩).exitCode = 0 ∧ (runTar J ⟨entries, .eof⟩).stderr = [] :=
  report_exitCode_of_parsed J (scan entries) hm hi

theorem findings_do_not_change_exit_code_witness :
    Line.missingConfig "c.json".toList ∈
      (runTar goJson ⟨[⟨"manifest.json".toList, "[\x7b\"Config\":\"c.json\"\x7d]".toList⟩],
        .eof⟩).stdout ∧
    (runTar goJson ⟨[⟨"manifest.json".toList, "[\x7b\"Config\":\"c.json\"\x7d]".toList⟩],
      .eof⟩).exitCode = 0 :=
  ⟨by decide,
   (findings_do_not_change_exit_code goJson
      [⟨"manifest.json".toList, "[\x7b\"Config\":\"c.json\"\x7d]".toList⟩]
      (by decide) (by decide)).1⟩

/-- C14: no finding is dropped.  The paths named by the `MISSING` lines of the
Docker validator are, in order and with repetitions, the references (for each
manifest entry its `Config`, then its `Layers`) that are absent from the entry
set; and the finding lines of the OCI validator are, in descriptor order, one
line for each descriptor that is malformed or whose blob is absent. -/
theorem findings_are_accumulated (found : Str → Bool) :
    (∀ manifest : List dockerManifestEntry,
      (dockerCheck found manifest).filterMap Line.missingPath =
        (allRefs manifest).filter (fun p => !found p)) ∧
    (∀ manifest : List dockerManifestEntry,
      (dockerCheck found manifest).filter Line.isFinding =
        manifest.flatMap (fun e =>
          (if found e.Config then [] else [Line.missingConfig e.Config]) ++
            (e.Layers.filter (fun l => !found l)).map Line.missingLayer)) ∧
    (∀ idx : ociIndex,
      (ociCheck found idx).filter Line.isFinding =
        idx.Manifests.filterMap (descriptorFinding found)) := by
  refine ⟨?_, ?_, ?_⟩
  · intro manifest
    rw [dockerCheck_eq, List.filterMap_append, filterMap_missingPath_entriesLines]
    split_ifs <;> simp [dockerSuccess, Line.missingPath]
  · intro manifest
    rw [dockerCheck_eq, List.filter_append, filter_isFinding_entriesLines]
    split_ifs <;> simp [dockerSuccess, Line.isFinding]
  · intro idx
    rw [ociCheck_eq, List.filter_append, filter_isFinding_descriptorsLines]
    split_ifs <;> simp [ociSuccess, Line.isFinding]

/-- C15: after the scan a string is in the entry set iff some entry of the
sequence, whatever its content, has that normalized name; so the set is the
same for two sequences with the same normalized names: an entry whose name is
already present changes nothing, and neither does the order of the entries. -/
theorem entry_set_correct :
    (∀ (entries : List TarEntry) (s : Str),
      (scan entries).found s = true ↔ ∃ t ∈ entries, normalizeName t.name = s) ∧
    (∀ e1 e2 : List TarEntry,
      (∀ s, (∃ t ∈ e1, normalizeName t.name = s) ↔ (∃ t ∈ e2, normalizeName t.name = s)) →
      (scan e1).found = (scan e2).found) ∧
    (∀ (entries : List TarEntry) (t : TarEntry),
      (∃ u ∈ entries, normalizeName u.name = normalizeName t.name) →
      (scan (entries ++ [t])).found = (scan entries).found) ∧
    (∀ e1 e2 : List TarEntry, e1.Perm e2 → (scan e1).found = (scan e2).found) := by
  have key : ∀ e1 e2 : List TarEntry,
      (∀ s, (∃ t ∈ e1, normalizeName t.name = s) ↔ (∃ t ∈ e2, normalizeName t.name = s)) →
      (scan e1).found = (scan e2).found := by
    intro e1 e2 h
    funext s
    rw [Bool.eq_iff_iff, scan_found, scan_found]
    exact h s
  refine ⟨scan_found, key, ?_, ?_⟩
  · rintro entries t ⟨u, hu, hn⟩
    apply key
    intro s
    constructor
    · rintro ⟨x, hx, hs⟩
      rcases List.mem_append.mp hx with hx | hx
      · exact ⟨x, hx, hs⟩
      · rw [List.mem_singleton] at hx
        subst hx
        exact ⟨u, hu, hn.trans hs⟩
    · rintro ⟨x, hx, hs⟩
      exact ⟨x, List.mem_append_left _ hx, hs⟩
  · intro e1 e2 hperm
    apply key
    intro s
    constructor
    · rintro ⟨x, hx, hs⟩
      exact ⟨x, hperm.mem_iff.mp hx, hs⟩
    · rintro ⟨x, hx, hs⟩
      exact ⟨x, hperm.mem_iff.mpr hx, hs⟩

theorem entry_set_correct_witness :
    (scan ([⟨"./a".toList, []⟩, ⟨"dir/".toList, []⟩] ++ [⟨"a".toList, "x".toList⟩])).found =
      (scan [⟨"./a".toList, []⟩, ⟨"dir/".toList, []⟩]).found :=
  entry_set_correct.2.2.1 [⟨"./a".toList, []⟩, ⟨"dir/".toList, []⟩] ⟨"a".toList, "x".toList⟩
    ⟨⟨"./a".toList, []⟩, by decide, by decide⟩

/-! ## Which block prints which line -/

theorem isOci_not_isDocker (ln : Line) (h : ln.isOci = true) : ln.isDocker = false := by
  cases ln with
  | text t =>
    simp only [Line.isOci, Bool.or_eq_true, beq_iff_eq] at h
    rcases h with h | h <;> rw [h] <;> decide
  | entry i tags c => simp [Line.isOci] at h
  | missingConfig c => simp [Line.isOci] at h
  | missingLayer l => simp [Line.isOci] at h
  | manifest i d => rfl
  | unexpectedDigest d => rfl
  | missingBlob b => rfl

theorem isDocker_not_isOci (ln : Line) (h : ln.isDocker = true) : ln.isOci = false := by
  cases ho : ln.isOci with
  | false => rfl
  | true =>
    rw [isOci_not_isDocker ln ho] at h
    exact absurd h (by decide)

theorem isDocker_of_mem_entriesLines (found : Str → Bool) (i : Nat)
    (es : List dockerManifestEntry) (ln : Line) (h : ln ∈ entriesLines found i es) :
    ln.isDocker = true := by
  induction es generalizing i with
  | nil => simp [entriesLines] at h
  | cons e es ih =>
    rw [entriesLines, List.mem_append] at h
    rcases h with h | h
    · rw [entryLines, List.mem_cons, List.mem_append] at h
      rcases h with h | h | h
      · subst h; rfl
      · split_ifs at h
        · simp at h
        · rw [List.mem_singleton] at h
          subst h; rfl
      · obtain ⟨l, _, rfl⟩ := List.mem_map.mp h
        rfl
    · exact ih (i + 1) h

theorem isDocker_of_mem_dockerCheck (found : Str → Bool) (es : List dockerManifestEntry)
    (ln : Line) (h : ln ∈ dockerCheck found es) : ln.isDocker = true := by
  rw [dockerCheck_eq, List.mem_append] at h
  rcases h with h | h
  · exact isDocker_of_mem_entriesLines found 0 es ln h
  · split_ifs at h
    · rw [List.mem_singleton] at h
      subst h
      decide
    · simp at h

theorem isOci_of_mem_ociCheck (found : Str → Bool) (idx : ociIndex)
    (ln : Line) (h : ln ∈ ociCheck found idx) : ln.isOci = true := by
  rw [ociCheck_eq, List.mem_append] at h
  rcases h with h | h
  · obtain ⟨k, m, _, hm⟩ := (mem_descriptorsLines found 0 _ _).mp h
    rcases descriptorLines_cases found (0 + k) m with ⟨_, e⟩ | ⟨a, r, _, _, e⟩
    · rw [e] at hm
      simp only [List.mem_cons, List.mem_singleton, List.not_mem_nil, or_false] at hm
      rcases hm with rfl | rfl <;> rfl
    · rw [e, List.mem_cons] at hm
      rcases hm with rfl | hm
      · rfl
      · split_ifs at hm
        · simp at hm
        · rw [List.mem_singleton] at hm
          subst hm; rfl
  · split_ifs at h
    · rw [List.mem_singleton] at h
      subst h
      decide
    · simp at h

theorem isDocker_of_mem_dockerPhase (J : JsonDecoder) (st : ScanState) (ln : Line)
    (h : ln ∈ (dockerPhase J st).out) : ln.isDocker = true := by
  unfold dockerPhase at h
  split_ifs at h
  · cases hp : J.unmarshalManifest st.manifestBuf with
    | none =>
      rw [hp] at h
      simp only [Phase.out, List.mem_singleton] at h
      subst h
      decide
    | some entries =>
      rw [hp] at h
      simp only [Phase.out, List.mem_cons] at h
      rcases h with rfl | h
      · decide
      · exact isDocker_of_mem_dockerCheck _ _ _ h
  · simp [Phase.out] at h

theorem isOci_of_mem_ociPhase (J : JsonDecoder) (st : ScanState) (ln : Line)
    (h : ln ∈ (ociPhase J st).out) : ln.isOci = true := by
  unfold ociPhase at h
  split_ifs at h
  · cases hp : J.unmarshalIndex st.indexBuf with
    | none =>
      rw [hp] at h
      simp only [Phase.out, List.mem_singleton] at h
      subst h
      decide
    | some idx =>
      rw [hp] at h
      simp only [Phase.out, List.mem_cons] at h
      rcases h with rfl | h
      · decide
      · exact isOci_of_mem_ociCheck _ _ _ h
  · simp [Phase.out] at h

/-- A line of the run comes from the Docker block, the OCI block, or is the
final "no layout" line. -/
theorem mem_report_stdout (J : JsonDecoder) (st : ScanState) (ln : Line)
    (h : ln ∈ (report J st).stdout) :
    ln ∈ (dockerPhase J st).out ∨ ln ∈ (ociPhase J st).out ∨ ln ∈ noLayoutPhase st := by
  unfold report at h
  cases hd : dockerPhase J st with
  | fatal out diag =>
    rw [hd] at h
    exact Or.inl h
  | done out1 =>
    rw [hd] at h
    dsimp only at h
    cases ho : ociPhase J st with
    | fatal out diag =>
      rw [ho] at h
      rcases List.mem_append.mp h with h | h
      · exact Or.inl h
      · exact Or.inr (Or.inl h)
    | done out2 =>
      rw [ho] at h
      dsimp only at h
      rcases List.mem_append.mp h with h | h
      · rcases List.mem_append.mp h with h | h
        · exact Or.inl h
        · exact Or.inr (Or.inl h)
      · exact Or.inr (Or.inr h)

theorem noLayoutPhase_lines (st : ScanState) (ln : Line) (h : ln ∈ noLayoutPhase st) :
    ln = noLayout := by
  unfold noLayoutPhase at h
  split_ifs at h
  · exact List.mem_singleton.mp h
  · simp at h

/-- C17: a zero-length manifest is the same as no manifest.  When the last
entry with basename `manifest.json` has empty content, the manifest buffer is
empty after the scan, the Docker block is skipped (no line of the run is a
Docker line), and with an empty index buffer the run prints just the "No
manifest.json or index.json detected" line and exits 0; the same holds for
`index.json` and the OCI block. -/
theorem empty_buffer_is_no_buffer (J : JsonDecoder) (before after : List TarEntry)
    (e : TarEntry) (hc : e.content = []) :
    (Base (normalizeName e.name) = "manifest.json".toList →
      (∀ x ∈ after, Base (normalizeName x.name) ≠ "manifest.json".toList) →
      (scan (before ++ e :: after)).manifestBuf = [] ∧
      dockerPhase J (scan (before ++ e :: after)) = .done [] ∧
      (∀ ln ∈ (runTar J ⟨before ++ e :: after, .eof⟩).stdout, ln.isDocker = false) ∧
      ((scan (before ++ e :: after)).indexBuf = [] →
        runTar J ⟨before ++ e :: after, .eof⟩ =
          { stdout := [Line.text
              "No manifest.json or index.json detected; tar may have an unexpected layout."],
            stderr := [], exitCode := 0 })) ∧
    (Base (normalizeName e.name) = "index.json".toList →
      (∀ x ∈ after, Base (normalizeName x.name) ≠ "index.json".toList) →
      (scan (before ++ e :: after)).indexBuf = [] ∧
      ociPhase J (scan (before ++ e :: after)) = .done [] ∧
      (∀ ln ∈ (runTar J ⟨before ++ e :: after, .eof⟩).stdout, ln.isOci = false) ∧
      ((scan (before ++ e :: after)).manifestBuf = [] →
        runTar J ⟨before ++ e :: after, .eof⟩ =
          { stdout := [Line.text
              "No manifest.json or index.json detected; tar may have an unexpected layout."],
            stderr := [], exitCode := 0 })) := by
  have key : ∀ base : Str, Base (normalizeName e.name) = base →
      (∀ x ∈ after, Base (normalizeName x.name) ≠ base) →
      lastCaptured base (before ++ e :: after) = [] := by
    intro base he hafter
    unfold lastCaptured
    have hnil : after.filter (fun x => decide (Base (normalizeName x.name) = base)) = [] := by
      rw [List.filter_eq_nil_iff]
      intro x hx
      simpa using hafter x hx
    rw [List.filter_append, List.filter_cons_of_pos (by simpa using he), hnil,
      List.getLast?_concat]
    exact hc
  have both : ∀ st : ScanState, st.manifestBuf = [] → st.indexBuf = [] →
      report J st = { stdout := [noLayout], stderr := [], exitCode := 0 } := by
    intro st hm hi
    unfold report
    rw [dockerPhase_of_empty J st hm, ociPhase_of_empty J st hi]
    dsimp only
    unfold noLayoutPhase
    rw [hm, hi]
    rfl
  constructor
  · intro he hafter
    have hm : (scan (before ++ e :: after)).manifestBuf = [] := by
      rw [scan_manifestBuf]
      exact key _ he hafter
    have hd := dockerPhase_of_empty J _ hm
    refine ⟨hm, hd, ?_, fun hi => both _ hm hi⟩
    intro ln hln
    rcases mem_report_stdout J _ ln hln with h | h | h
    · rw [hd] at h
      simp [Phase.out] at h
    · exact isOci_not_isDocker ln (isOci_of_mem_ociPhase J _ ln h)
    · rw [noLayoutPhase_lines _ ln h]
      decide
  · intro he hafter
    have hi : (scan (before ++ e :: after)).indexBuf = [] := by
      rw [scan_indexBuf]
      exact key _ he hafter
    have ho := ociPhase_of_empty J _ hi
    refine ⟨hi, ho, ?_, fun hm => both _ hm hi⟩
    intro ln hln
    rcases mem_report_stdout J _ ln hln with h | h | h
    · exact isDocker_not_isOci ln (isDocker_of_mem_dockerPhase J _ ln h)
    · rw [ho] at h
      simp [Phase.out] at h
    · rw [noLayoutPhase_lines _ ln h]
      decide

theorem empty_buffer_is_no_buffer_witness :
    runTar goJson ⟨[⟨"manifest.json".toList, "[]".toList⟩] ++
        ⟨"./manifest.json".toList, []⟩ :: [⟨"layer.tar".toList, "x".toList⟩], .eof⟩ =
      { stdout := [Line.text
          "No manifest.json or index.json detected; tar may have an unexpected layout."],
        stderr := [], exitCode := 0 } :=
  ((empty_buffer_is_no_buffer goJson [⟨"manifest.json".toList, "[]".toList⟩]
      [⟨"layer.tar".toList, "x".toList⟩] ⟨"./manifest.json".toList, []⟩ rfl).1
    (by decide) (by decide)).2.2.2 (by decide)

/-! ## Monotonicity in the entry set -/

theorem dockerCheck_finding_mono (A B : Str → Bool) (h : ∀ s, A s = true → B s = true)
    (manifest : List dockerManifestEntry) (ln : Line) (hln : ln ∈ dockerCheck B manifest)
    (hf : ln.isFinding = true) : ln ∈ dockerCheck A manifest := by
  have hA : ∀ p, B p = false → A p = false := by
    intro p hp
    cases ha : A p with
    | false => rfl
    | true =>
      rw [h p ha] at hp
      exact absurd hp (by decide)
  have hd := isDocker_of_mem_dockerCheck B manifest ln hln
  rw [dockerCheck_eq, List.mem_append] at hln
  rw [dockerCheck_eq]
  apply List.mem_append_left
  rcases hln with hln | hln
  · cases ln with
    | text t => simp [Line.isFinding] at hf
    | entry i tags c => simp [Line.isFinding] at hf
    | manifest i d => simp [Line.isFinding] at hf
    | unexpectedDigest d => simp [Line.isDocker] at hd
    | missingBlob b => simp [Line.isDocker] at hd
    | missingConfig c =>
      obtain ⟨e, he, hc, hb⟩ := (mem_entriesLines_missingConfig B 0 manifest c).mp hln
      exact (mem_entriesLines_missingConfig A 0 manifest c).mpr ⟨e, he, hc, hA c hb⟩
    | missingLayer l =>
      obtain ⟨e, he, hl, hb⟩ := (mem_entriesLines_missingLayer B 0 manifest l).mp hln
      exact (mem_entriesLines_missingLayer A 0 manifest l).mpr ⟨e, he, hl, hA l hb⟩
  · split_ifs at hln
    · rw [List.mem_singleton] at hln
      subst hln
      simp [dockerSuccess, Line.isFinding] at hf
    · simp at hln

theorem dockerCheck_success_mono (A B : Str → Bool) (h : ∀ s, A s = true → B s = true)
    (manifest : List dockerManifestEntry) (hs : dockerSuccess ∈ dockerCheck A manifest) :
    dockerSuccess ∈ dockerCheck B manifest := by
  rw [dockerCheck_eq, List.mem_append] at hs
  rw [dockerCheck_eq]
  apply List.mem_append_right
  rcases hs with hs | hs
  · exact absurd hs (text_not_mem_entriesLines A 0 manifest _)
  · split_ifs at hs with hall
    · have hallB : manifest.all (fun e => B e.Config && e.Layers.all B) = true := by
        rw [List.all_eq_true] at hall ⊢
        intro e he
        have := hall e he
        rw [Bool.and_eq_true, List.all_eq_true] at this ⊢
        exact ⟨h _ this.1, fun l hl => h _ (this.2 l hl)⟩
      rw [if_pos hallB]
      exact List.mem_singleton.mpr rfl
    · simp at hs

theorem descriptorOk_mono (A B : Str → Bool) (h : ∀ s, A s = true → B s = true)
    (m : ociManifest) (hok : descriptorOk A m = true) : descriptorOk B m = true := by
  by_cases hc : ':' ∈ m.Digest
  · obtain ⟨a, r, hs, ha⟩ := exists_first_split ':' m.Digest hc
    obtain ⟨d⟩ := m
    simp only at hs
    subst hs
    rw [descriptorOk_of_split A a r ha] at hok
    rw [descriptorOk_of_split B a r ha]
    exact h _ hok
  · rw [descriptorOk_of_not_mem A m hc] at hok
    exact absurd hok (by decide)

theorem ociCheck_finding_mono (A B : Str → Bool) (h : ∀ s, A s = true → B s = true)
    (idx : ociIndex) (ln : Line) (hln : ln ∈ ociCheck B idx) (hf : ln.isFinding = true) :
    ln ∈ ociCheck A idx := by
  rw [ociCheck_eq, List.mem_append] at hln
  rw [ociCheck_eq]
  apply List.mem_append_left
  rcases hln with hln | hln
  · obtain ⟨k, m, hk, hm⟩ := (mem_descriptorsLines B 0 _ _).mp hln
    refine (mem_descriptorsLines A 0 _ _).mpr ⟨k, m, hk, ?_⟩
    rcases descriptorLines_cases B (0 + k) m with ⟨hn, e⟩ | ⟨a, r, hd, ha, e⟩
    · rw [e] at hm
      unfold descriptorLines
      rw [checkDescriptor_of_not_mem A _ m true hn]
      exact hm
    · rw [e, List.mem_cons] at hm
      rcases hm with rfl | hm
      · simp [Line.isFinding] at hf
      · split_ifs at hm with hb
        · simp at hm
        · rw [List.mem_singleton] at hm
          subst hm
          have hA : ¬ A (Join ["blobs".toList, a, r]) = true := fun ha' => hb (h _ ha')
          obtain ⟨d⟩ := m
          simp only at hd
          subst hd
          unfold descriptorLines
          rw [checkDescriptor_of_split A _ a r true ha, if_neg hA]
          simp
  · split_ifs at hln
    · rw [List.mem_singleton] at hln
      subst hln
      simp [ociSuccess, Line.isFinding] at hf
    · simp at hln

theorem ociCheck_success_mono (A B : Str → Bool) (h : ∀ s, A s = true → B s = true)
    (idx : ociIndex) (hs : ociSuccess ∈ ociCheck A idx) : ociSuccess ∈ ociCheck B idx := by
  rw [ociCheck_eq, List.mem_append] at hs
  rw [ociCheck_eq]
  apply List.mem_append_right
  rcases hs with hs | hs
  · exact absurd hs (text_not_mem_descriptorsLines A 0 _ _)
  · split_ifs at hs with hall
    · have hallB : idx.Manifests.all (descriptorOk B) = true := by
        rw [List.all_eq_true] at hall ⊢
        intro m hm
        exact descriptorOk_mono A B h m (hall m hm)
      rw [if_pos hallB]
      exact List.mem_singleton.mpr rfl
    · simp at hs

theorem dockerPhase_mono (J : JsonDecoder) (st st' : ScanState)
    (hm : st'.manifestBuf = st.manifestBuf)
    (hf : ∀ s, st.found s = true → st'.found s = true) :
    (∀ ln ∈ (dockerPhase J st').out, ln.isFinding = true → ln ∈ (dockerPhase J st).out) ∧
    ((∃ o' o, dockerPhase J st' = .done o' ∧ dockerPhase J st = .done o) ∨
      (∃ o d, dockerPhase J st' = .fatal o d ∧ dockerPhase J st = .fatal o d)) := by
  unfold dockerPhase
  rw [hm]
  by_cases hb : st.manifestBuf.length > 0
  · rw [if_pos hb, if_pos hb]
    cases hp : J.unmarshalManifest st.manifestBuf with
    | none => exact ⟨fun ln h _ => h, Or.inr ⟨_, _, rfl, rfl⟩⟩
    | some entries =>
      refine ⟨?_, Or.inl ⟨_, _, rfl, rfl⟩⟩
      intro ln hln hfin
      simp only [Phase.out, List.mem_cons] at hln ⊢
      rcases hln with h | h
      · exact Or.inl h
      · exact Or.inr (dockerCheck_finding_mono st.found st'.found hf entries ln h hfin)
  · rw [if_neg hb, if_neg hb]
    exact ⟨fun ln h _ => h, Or.inl ⟨_, _, rfl, rfl⟩⟩

theorem ociPhase_mono (J : JsonDecoder) (st st' : ScanState)
    (hi : st'.indexBuf = st.indexBuf)
    (hf : ∀ s, st.found s = true → st'.found s = true) :
    (∀ ln ∈ (ociPhase J st').out, ln.isFinding = true → ln ∈ (ociPhase J st).out) ∧
    ((∃ o' o, ociPhase J st' = .done o' ∧ ociPhase J st = .done o) ∨
      (∃ o d, ociPhase J st' = .fatal o d ∧ ociPhase J st = .fatal o d)) := by
  unfold ociPhase
  rw [hi]
  by_cases hb : st.indexBuf.length > 0
  · rw [if_pos hb, if_pos hb]
    cases hp : J.unmarshalIndex st.indexBuf with
    | none => exact ⟨fun ln h _ => h, Or.inr ⟨_, _, rfl, rfl⟩⟩
    | some idx =>
      refine ⟨?_, Or.inl ⟨_, _, rfl, rfl⟩⟩
      intro ln hln hfin
      simp only [Phase.out, List.mem_cons] at hln ⊢
      rcases hln with h | h
      · exact Or.inl h
      · exact Or.inr (ociCheck_finding_mono st.found st'.found hf idx ln h hfin)
  · rw [if_neg hb, if_neg hb]
    exact ⟨fun ln h _ => h, Or.inl ⟨_, _, rfl, rfl⟩⟩

/-- With the same buffers and a larger entry set, the run ends the same way
and every finding it prints was printed against the smaller set. -/
theorem report_mono (J : JsonDecoder) (st st' : ScanState)
    (hm : st'.manifestBuf = st.manifestBuf) (hi : st'.indexBuf = st.indexBuf)
    (hf : ∀ s, st.found s = true → st'.found s = true) :
    (report J st').exitCode = (report J st).exitCode ∧
    (report J st').stderr = (report J st).stderr ∧
    ∀ ln ∈ (report J st').stdout, ln.isFinding = true → ln ∈ (report J st).stdout := by
  have hnl : noLayoutPhase st' = noLayoutPhase st := by
    unfold noLayoutPhase
    rw [hm, hi]
  obtain ⟨hd, hdc⟩ := dockerPhase_mono J st st' hm hf
  obtain ⟨ho, hoc⟩ := ociPhase_mono J st st' hi hf
  unfold report
  rcases hdc with ⟨o1', o1, e1', e1⟩ | ⟨o1, d1, e1', e1⟩
  · rw [e1', e1] at hd
    rw [e1', e1]
    dsimp only
    rcases hoc with ⟨o2', o2, e2', e2⟩ | ⟨o2, d2, e2', e2⟩
    · rw [e2', e2] at ho
      rw [e2', e2, hnl]
      refine ⟨rfl, rfl, ?_⟩
      intro ln hln hfin
      simp only [List.mem_append] at hln ⊢
      rcases hln with (h | h) | h
      · exact Or.inl (Or.inl (hd ln h hfin))
      · exact Or.inl (Or.inr (ho ln h hfin))
      · exact Or.inr h
    · rw [e2', e2] at ho
      rw [e2', e2]
      refine ⟨rfl, rfl, ?_⟩
      intro ln hln hfin
      simp only [List.mem_append] at hln ⊢
      rcases hln with h | h
      · exact Or.inl (hd ln h hfin)
      · exact Or.inr (ho ln h hfin)
  · rw [e1', e1] at hd
    rw [e1', e1]
    exact ⟨rfl, rfl, fun ln hln hfin => hd ln hln hfin⟩

theorem lastCaptured_insert (base : Str) (a extra b : List TarEntry)
    (h : ∀ x ∈ extra, Base (normalizeName x.name) ≠ base) :
    lastCaptured base (a ++ extra ++ b) = lastCaptured base (a ++ b) := by
  unfold lastCaptured
  have hnil : extra.filter (fun x => decide (Base (normalizeName x.name) = base)) = [] := by
    rw [List.filter_eq_nil_iff]
    intro x hx
    simpa using h x hx
  rw [List.filter_append, List.filter_append, hnil, List.append_nil, ← List.filter_append]

/-- C18: the checks are monotone in the archive contents.  If every member of
entry set `A` is a member of `B`, every finding line (in particular every
`MISSING` line) printed against `B` is printed against `A`, and a success
summary printed against `A` is printed against `B`; and inserting entries
whose basename is neither `manifest.json` nor `index.json` into an archive
leaves both buffers unchanged and never turns a passing run (exit code 0, no
finding) into a failing one. -/
theorem monotone_in_archive_contents (J : JsonDecoder) :
    (∀ A B : Str → Bool, (∀ s, A s = true → B s = true) →
      (∀ manifest : List dockerManifestEntry,
        (∀ ln ∈ dockerCheck B manifest, ln.isFinding = true → ln ∈ dockerCheck A manifest) ∧
        (dockerSuccess ∈ dockerCheck A manifest → dockerSuccess ∈ dockerCheck B manifest)) ∧
      (∀ idx : ociIndex,
        (∀ ln ∈ ociCheck B idx, ln.isFinding = true → ln ∈ ociCheck A idx) ∧
        (ociSuccess ∈ ociCheck A idx → ociSuccess ∈ ociCheck B idx))) ∧
    (∀ a extra b : List TarEntry,
      (∀ x ∈ extra, Base (normalizeName x.name) ≠ "manifest.json".toList ∧
        Base (normalizeName x.name) ≠ "index.json".toList) →
      (scan (a ++ extra ++ b)).manifestBuf = (scan (a ++ b)).manifestBuf ∧
      (scan (a ++ extra ++ b)).indexBuf = (scan (a ++ b)).indexBuf ∧
      (passes (runTar J ⟨a ++ b, .eof⟩) → passes (runTar J ⟨a ++ extra ++ b, .eof⟩))) := by
  constructor
  · intro A B h
    exact ⟨fun manifest =>
        ⟨fun ln hln hf => dockerCheck_finding_mono A B h manifest ln hln hf,
         dockerCheck_success_mono A B h manifest⟩,
      fun idx =>
        ⟨fun ln hln hf => ociCheck_finding_mono A B h idx ln hln hf,
         ociCheck_success_mono A B h idx⟩⟩
  · intro a extra b hex
    have hm : (scan (a ++ extra ++ b)).manifestBuf = (scan (a ++ b)).manifestBuf := by
      rw [scan_manifestBuf, scan_manifestBuf]
      exact lastCaptured_insert _ a extra b (fun x hx => (hex x hx).1)
    have hi : (scan (a ++ extra ++ b)).indexBuf = (scan (a ++ b)).indexBuf := by
      rw [scan_indexBuf, scan_indexBuf]
      exact lastCaptured_insert _ a extra b (fun x hx => (hex x hx).2)
    have hf : ∀ s, (scan (a ++ b)).found s = true → (scan (a ++ extra ++ b)).found s = true := by
      intro s hs
      obtain ⟨t, ht, hn⟩ := (scan_found _ s).mp hs
      refine (scan_found _ s).mpr ⟨t, ?_, hn⟩
      rcases List.mem_append.mp ht with h | h
      · exact List.mem_append_left _ (List.mem_append_left _ h)
      · exact List.mem_append_right _ h
    refine ⟨hm, hi, ?_⟩
    rintro ⟨hexit, hnone⟩
    obtain ⟨h1, _, h3⟩ := report_mono J (scan (a ++ b)) (scan (a ++ extra ++ b)) hm hi hf
    refine ⟨h1.trans hexit, ?_⟩
    intro ln hln
    cases hfin : ln.isFinding with
    | false => rfl
    | true =>
      have := hnone ln (h3 ln hln hfin)
      rw [hfin] at this
      exact absurd this (by decide)

theorem monotone_in_archive_contents_witness :
    passes (runTar goJson ⟨[⟨"manifest.json".toList,
        "[\x7b\"Config\":\"c.json\"\x7d]".toList⟩] ++ [⟨"extra.txt".toList, []⟩] ++
        [⟨"c.json".toList, []⟩], .eof⟩) :=
  ((monotone_in_archive_contents goJson).2
      [⟨"manifest.json".toList, "[\x7b\"Config\":\"c.json\"\x7d]".toList⟩]
      [⟨"extra.txt".toList, []⟩] [⟨"c.json".toList, []⟩] (by decide)).2.2
    ⟨by decide, by decide⟩

/-! ## The start of the run -/

/-- The zero-padded header equals the magic number exactly when the file
starts with it. -/
theorem padded_header_eq_magic (bs : List Nat) :
    bs.take 4 ++ List.replicate (4 - (bs.take 4).length) 0 = zstdMagic ↔
      bs.take 4 = zstdMagic := by
  rcases bs with _ | ⟨a, _ | ⟨b, _ | ⟨c, _ | ⟨d, r⟩⟩⟩⟩ <;> simp [zstdMagic, List.replicate]

theorem route_of_readable (src : Source) (hr : src.readErr = false) (hb : src.bytes ≠ []) :
    route src = some (if src.bytes.take 4 = zstdMagic
      then Route.zstd (seekStart src (min 4 src.bytes.length))
      else Route.raw (seekStart src (min 4 src.bytes.length))) := by
  unfold route readHeader
  rw [hr]
  simp only [Bool.false_eq_true, if_false, if_neg hb]
  by_cases hm : src.bytes.take 4 = zstdMagic
  · rw [if_pos hm, if_pos ((padded_header_eq_magic src.bytes).mpr hm)]
  · rw [if_neg hm, if_neg (fun h => hm ((padded_header_eq_magic src.bytes).mp h))]

theorem route_of_unreadable (src : Source) (h : src.readErr = true ∨ src.bytes = []) :
    route src = none := by
  unfold route readHeader
  rcases h with h | h
  · rw [h]
    rfl
  · rw [h]
    cases src.readErr <;> rfl

theorem deliver_ending_err (items : List TarItem) :
    (deliver items .err).ending = .err := by
  induction items with
  | nil => rfl
  | cons it its ih =>
    unfold deliver
    split_ifs
    · rfl
    · exact ih

theorem deliver_ending_of_readErr (items : List TarItem) (ending : TarEnd) (it : TarItem)
    (hmem : it ∈ items) (herr : it.readErr = true) : (deliver items ending).ending = .err := by
  induction items with
  | nil => simp at hmem
  | cons x xs ih =>
    unfold deliver
    by_cases hx : x.readErr = true
    · rw [if_pos hx]
    · rw [if_neg hx]
      rcases List.mem_cons.mp hmem with h | h
      · subst h
        exact absurd herr hx
      · exact ih h

theorem runTar_of_err (J : JsonDecoder) (ts : TarStream) (h : ts.ending = .err) :
    runTar J ts = fatal "tar read:" := by
  unfold runTar
  rw [h]
  rfl

/-- C12 (counterexample): a four-byte source on which `Seek` fails.  The header
read takes the four bytes, the failed `Seek` leaves the source at offset 4,
where the tar reader meets the end of the stream at once: the run does not
abort, it prints the "No manifest.json or index.json detected" line and exits
with code 0. -/
theorem seek_failure_is_not_fatal :
    runSource goJson
      { bytes := [97, 98, 99, 100], readErr := false, seekErr := true, zstdErr := false,
        rawTar := fun off => if off = 4 then ⟨[], .eof⟩ else ⟨[], .err⟩,
        zstdTar := fun _ => ⟨[], .err⟩ } =
      { stdout := [Line.text
          "No manifest.json or index.json detected; tar may have an unexpected layout."],
        stderr := [], exitCode := 0 } := by
  decide

/-- C12 (amended): a failing read of the 4-byte header (an empty source
included) and a `tr.Next()` error other than `io.EOF` abort the run with a
diagnostic and exit code 2 before anything is validated or printed; the error
of a content read is discarded where it occurs, but the tar reader returns it
from the next `tr.Next()`, so the run aborts in the same way.  The result of
`Seek` is discarded: when it fails the run goes on, reading the stream from
the offset the header read left. -/
theorem io_failures (J : JsonDecoder) :
    (∀ src : Source, src.readErr = true ∨ src.bytes = [] →
      runSource J src = { stdout := [], stderr := ["read header:"], exitCode := 2 }) ∧
    (∀ items : List TarItem,
      runTar J (deliver items .err) = { stdout := [], stderr := ["tar read:"], exitCode := 2 }) ∧
    (∀ (items : List TarItem) (ending : TarEnd) (it : TarItem), it ∈ items →
      it.readErr = true →
      runTar J (deliver items ending) =
        { stdout := [], stderr := ["tar read:"], exitCode := 2 }) ∧
    (∀ src : Source, src.readErr = false → src.bytes ≠ [] → src.seekErr = true →
      route src = some (if src.bytes.take 4 = zstdMagic
        then Route.zstd (min 4 src.bytes.length) else Route.raw (min 4 src.bytes.length))) := by
  refine ⟨?_, ?_, ?_, ?_⟩
  · intro src h
    unfold runSource
    rw [route_of_unreadable src h]
    rfl
  · intro items
    exact runTar_of_err J _ (deliver_ending_err items)
  · intro items ending it hmem herr
    exact runTar_of_err J _ (deliver_ending_of_readErr items ending it hmem herr)
  · intro src hr hb hs
    rw [route_of_readable src hr hb]
    unfold seekStart
    rw [hs]
    rfl

theorem io_failures_witness :
    runTar goJson (deliver [⟨"manifest.json".toList, "[".toList, true⟩,
        ⟨"layer.tar".toList, [], false⟩] .eof) =
      { stdout := [], stderr := ["tar read:"], exitCode := 2 } :=
  (io_failures goJson).2.2.1
    [⟨"manifest.json".toList, "[".toList, true⟩, ⟨"layer.tar".toList, [], false⟩] .eof
    ⟨"manifest.json".toList, "[".toList, true⟩ (by decide) rfl

/-- C13: zstd detection is decided by the 4-byte prefix.  When the header read
and the `Seek` succeed, the reader is the zstd decoder if the first four bytes
of the source are `28 B5 2F FD` and the file itself otherwise, and it starts at
offset 0; the source is routed through zstd only if it starts with these four
bytes, so never when it is shorter than four bytes; and the run is the scan of
the tar stream that reader yields from offset 0. -/
theorem zstd_detection_by_magic (J : JsonDecoder) (src : Source) :
    (src.readErr = false → src.seekErr = false → src.bytes ≠ [] →
      route src = some (if src.bytes.take 4 = zstdMagic then Route.zstd 0 else Route.raw 0)) ∧
    (src.readErr = false →
      ((∃ off, route src = some (Route.zstd off)) ↔ src.bytes.take 4 = zstdMagic)) ∧
    (src.bytes.length < 4 → ∀ off, route src ≠ some (Route.zstd off)) ∧
    (src.seekErr = false → ∀ r, route src = some r → r = Route.raw 0 ∨ r = Route.zstd 0) ∧
    (src.readErr = false → src.seekErr = false → src.bytes ≠ [] →
      runSource J src =
        if src.bytes.take 4 = zstdMagic then
          (if src.zstdErr then fatal "zstd new reader:"
           else runTar J (deliver (src.zstdTar 0).items (src.zstdTar 0).ending))
        else runTar J (deliver (src.rawTar 0).items (src.rawTar 0).ending)) := by
  have hroute : src.readErr = false → src.seekErr = false → src.bytes ≠ [] →
      route src = some (if src.bytes.take 4 = zstdMagic then Route.zstd 0 else Route.raw 0) := by
    intro hr hs hb
    rw [route_of_readable src hr hb]
    unfold seekStart
    rw [hs]
    rfl
  have hiff : ∀ s : Source, (∃ off, route s = some (Route.zstd off)) →
      s.bytes.take 4 = zstdMagic := by
    rintro s ⟨off, h⟩
    by_cases hu : s.readErr = true ∨ s.bytes = []
    · rw [route_of_unreadable s hu] at h
      exact absurd h (by simp)
    · have hr : s.readErr = false := by
        cases hre : s.readErr with
        | false => rfl
        | true => exact absurd (Or.inl hre) hu
      have hb : s.bytes ≠ [] := fun hb => hu (Or.inr hb)
      rw [route_of_readable s hr hb] at h
      by_contra hm
      rw [if_neg hm] at h
      simp at h
  refine ⟨hroute, ?_, ?_, ?_, ?_⟩
  · intro hr
    refine ⟨hiff src, ?_⟩
    intro hm
    have hb : src.bytes ≠ [] := by
      intro hb
      rw [hb] at hm
      simp [zstdMagic] at hm
    rw [route_of_readable src hr hb, if_pos hm]
    exact ⟨_, rfl⟩
  · intro hlen off h
    have hm := hiff src ⟨off, h⟩
    have : (src.bytes.take 4).length = 4 := by rw [hm]; rfl
    rw [List.length_take] at this
    omega
  · intro hs r h
    by_cases hu : src.readErr = true ∨ src.bytes = []
    · rw [route_of_unreadable src hu] at h
      exact absurd h (by simp)
    · have hr : src.readErr = false := by
        cases hre : src.readErr with
        | false => rfl
        | true => exact absurd (Or.inl hre) hu
      have hb : src.bytes ≠ [] := fun hb => hu (Or.inr hb)
      rw [hroute hr hs hb] at h
      split_ifs at h
      · right
        exact (Option.some.inj h).symm
      · left
        exact (Option.some.inj h).symm
  · intro hr hs hb
    unfold runSource
    rw [hroute hr hs hb]
    split_ifs <;> rfl

theorem zstd_detection_by_magic_witness :
    route { bytes := [0x28, 0xB5, 0x2F, 0xFD, 0, 1], readErr := false, seekErr := false,
            zstdErr := false, rawTar := fun _ => ⟨[], .err⟩, zstdTar := fun _ => ⟨[], .eof⟩ } =
      some (Route.zstd 0) ∧
    route { bytes := [0x28, 0xB5, 0x2F], readErr := false, seekErr := false,
            zstdErr := false, rawTar := fun _ => ⟨[], .err⟩, zstdTar := fun _ => ⟨[], .eof⟩ } ≠
      some (Route.zstd 0) :=
  ⟨(zstd_detection_by_magic goJson
      { bytes := [0x28, 0xB5, 0x2F, 0xFD, 0, 1], readErr := false, seekErr := false,
        zstdErr := false, rawTar := fun _ => ⟨[], .err⟩, zstdTar := fun _ => ⟨[], .eof⟩ }).1
      rfl rfl (by decide),
   (zstd_detection_by_magic goJson
      { bytes := [0x28, 0xB5, 0x2F], readErr := false, seekErr := false,
        zstdErr := false, rawTar := fun _ => ⟨[], .err⟩, zstdTar := fun _ => ⟨[], .eof⟩ }).2.2.1
      (by decide) 0⟩

/-! ## What `json.Unmarshal` accepts -/

theorem decodeString_isSome (cur : Str) (v : JVal) :
    (decodeString cur v).isSome = stringOrNull v := by
  cases v <;> rfl

theorem decodeStrings_isSome (backing : List Str) (vs : List JVal) :
    (decodeStrings backing vs).isSome = vs.all stringOrNull := by
  induction vs generalizing backing with
  | nil => rfl
  | cons v vs ih =>
    have h1 := decodeString_isSome (backing.headD []) v
    have h2 := ih backing.tail
    rw [List.all_cons, ← h1, ← h2]
    rw [decodeStrings]
    cases decodeString (backing.headD []) v <;> cases decodeStrings backing.tail vs <;> rfl

theorem decodeStringSlice_isSome (cur : GoSlice Str) (v : JVal) :
    (decodeStringSlice cur v).isSome = stringsOrNull v := by
  cases v with
  | arr xs =>
    unfold decodeStringSlice stringsOrNull
    cases xs with
    | nil => rfl
    | cons x xs =>
      simp only [List.isEmpty_cons, Bool.false_eq_true, if_false, Option.isSome_map']
      exact decodeStrings_isSome _ _
  | null => rfl
  | bool b => rfl
  | num r => rfl
  | str t => rfl
  | obj kvs => rfl

theorem decodeEntryFields_isSome (e : EntryState) (kvs : List (Str × JVal)) :
    (decodeEntryFields e kvs).isSome = kvs.all entryMemberOk := by
  induction kvs generalizing e with
  | nil => rfl
  | cons kv kvs ih =>
    obtain ⟨k, v⟩ := kv
    rw [List.all_cons]
    unfold decodeEntryFields entryMemberOk
    dsimp only
    by_cases h1 : keyMatches "Config" k = true
    · rw [if_pos h1, if_pos h1, ← decodeString_isSome e.Config v]
      cases decodeString e.Config v with
      | none => rfl
      | some c => simp only [Option.bind_some, Option.isSome_some, Bool.true_and]; exact ih _
    · rw [if_neg h1, if_neg h1]
      by_cases h2 : keyMatches "RepoTags" k = true
      · rw [if_pos h2, if_pos h2, ← decodeStringSlice_isSome e.RepoTags v]
        cases decodeStringSlice e.RepoTags v with
        | none => rfl
        | some c => simp only [Option.bind_some, Option.isSome_some, Bool.true_and]; exact ih _
      · rw [if_neg h2, if_neg h2]
        by_cases h3 : keyMatches "Layers" k = true
        · rw [if_pos h3, if_pos h3, ← decodeStringSlice_isSome e.Layers v]
          cases decodeStringSlice e.Layers v with
          | none => rfl
          | some c => simp only [Option.bind_some, Option.isSome_some, Bool.true_and]; exact ih _
        · rw [if_neg h3, if_neg h3, Bool.true_and]
          exact ih _

theorem decodeEntry_isSome (v : JVal) : (decodeEntry v).isSome = entryValueOk v := by
  cases v with
  | obj kvs =>
    unfold decodeEntry entryValueOk
    rw [Option.isSome_map']
    exact decodeEntryFields_isSome _ _
  | null => rfl
  | bool b => rfl
  | num r => rfl
  | str t => rfl
  | arr xs => rfl

theorem decodeEntries_isSome (vs : List JVal) :
    (decodeEntries vs).isSome = vs.all entryValueOk := by
  induction vs with
  | nil => rfl
  | cons v vs ih =>
    rw [List.all_cons, ← decodeEntry_isSome v, ← ih]
    rw [decodeEntries]
    cases decodeEntry v <;> cases decodeEntries vs <;> rfl

theorem decodeManifest_isSome (v : JVal) : (decodeManifest v).isSome = manifestValueOk v := by
  cases v with
  | arr xs => exact decodeEntries_isSome xs
  | null => rfl
  | bool b => rfl
  | num r => rfl
  | str t => rfl
  | obj kvs => rfl

theorem decodeDescriptorFields_isSome (m : ociManifest) (kvs : List (Str × JVal)) :
    (decodeDescriptorFields m kvs).isSome = kvs.all descriptorMemberOk := by
  induction kvs generalizing m with
  | nil => rfl
  | cons kv kvs ih =>
    obtain ⟨k, v⟩ := kv
    rw [List.all_cons]
    unfold decodeDescriptorFields descriptorMemberOk
    dsimp only
    by_cases h1 : keyMatches "digest" k = true
    · rw [if_pos h1, if_pos h1, ← decodeString_isSome m.Digest v]
      cases decodeString m.Digest v with
      | none => rfl
      | some c => simp only [Option.bind_some, Option.isSome_some, Bool.true_and]; exact ih _
    · rw [if_neg h1, if_neg h1, Bool.true_and]
      exact ih _

theorem decodeDescriptor_isSome (cur : ociManifest) (v : JVal) :
    (decodeDescriptor cur v).isSome = descriptorValueOk v := by
  cases v with
  | obj kvs => exact decodeDescriptorFields_isSome cur kvs
  | null => rfl
  | bool b => rfl
  | num r => rfl
  | str t => rfl
  | arr xs => rfl

theorem decodeDescriptors_isSome (backing : List ociManifest) (vs : List JVal) :
    (decodeDescriptors backing vs).isSome = vs.all descriptorValueOk := by
  induction vs generalizing backing with
  | nil => rfl
  | cons v vs ih =>
    have h1 := decodeDescriptor_isSome (backing.headD { Digest := [] }) v
    have h2 := ih backing.tail
    rw [List.all_cons, ← h1, ← h2]
    rw [decodeDescriptors]
    cases decodeDescriptor (backing.headD { Digest := [] }) v <;>
      cases decodeDescriptors backing.tail vs <;> rfl

theorem decodeManifests_isSome (cur : GoSlice ociManifest) (v : JVal) :
    (decodeManifests cur v).isSome = manifestsValueOk v := by
  cases v with
  | arr xs =>
    unfold decodeManifests manifestsValueOk
    cases xs with
    | nil => rfl
    | cons x xs =>
      simp only [List.isEmpty_cons, Bool.false_eq_true, if_false, Option.isSome_map']
      exact decodeDescriptors_isSome _ _
  | null => rfl
  | bool b => rfl
  | num r => rfl
  | str t => rfl
  | obj kvs => rfl

theorem decodeIndexFields_isSome (ms : GoSlice ociManifest) (kvs : List (Str × JVal)) :
    (decodeIndexFields ms kvs).isSome = kvs.all indexMemberOk := by
  induction kvs generalizing ms with
  | nil => rfl
  | cons kv kvs ih =>
    obtain ⟨k, v⟩ := kv
    rw [List.all_cons]
    unfold decodeIndexFields indexMemberOk
    dsimp only
    by_cases h1 : keyMatches "manifests" k = true
    · rw [if_pos h1, if_pos h1, ← decodeManifests_isSome ms v]
      cases decodeManifests ms v with
      | none => rfl
      | some c => simp only [Option.bind_some, Option.isSome_some, Bool.true_and]; exact ih _
    · rw [if_neg h1, if_neg h1, Bool.true_and]
      exact ih _

theorem decodeIndex_isSome (v : JVal) : (decodeIndex v).isSome = indexValueOk v := by
  cases v with
  | obj kvs =>
    unfold decodeIndex indexValueOk
    rw [Option.isSome_map']
    exact decodeIndexFields_isSome _ _
  | null => rfl
  | bool b => rfl
  | num r => rfl
  | str t => rfl
  | arr xs => rfl

/-- A buffer is rejected exactly when it is not JSON or its value is not
acceptable. -/
theorem bind_eq_none_iff_not_ok {α : Type} (p : Option JVal) (dec : JVal → Option α)
    (ok : JVal → Bool) (h : ∀ v, (dec v).isSome = ok v) :
    p.bind dec = none ↔ p = none ∨ ∃ v, p = some v ∧ ok v = false := by
  cases p with
  | none => simp
  | some v =>
    simp only [Option.bind_some, reduceCtorEq, Option.some.injEq, exists_eq_left', false_or]
    rw [← h v]
    cases hd : dec v <;> simp [hd]

theorem decodeEntryFields_of_no_match (kvs : List (Str × JVal)) (e : EntryState)
    (h : ∀ kv ∈ kvs, keyMatches "Config" kv.1 = false ∧ keyMatches "RepoTags" kv.1 = false ∧
      keyMatches "Layers" kv.1 = false) :
    decodeEntryFields e kvs = some e := by
  induction kvs with
  | nil => rfl
  | cons kv kvs ih =>
    obtain ⟨k, v⟩ := kv
    have hk := h (k, v) (List.mem_cons_self _ _)
    simp only at hk
    unfold decodeEntryFields
    rw [hk.1, hk.2.1, hk.2.2]
    simp only [Bool.false_eq_true, if_false]
    exact ih (fun kv hkv => h kv (List.mem_cons_of_mem _ hkv))

theorem decodeDescriptorFields_of_no_match (kvs : List (Str × JVal)) (m : ociManifest)
    (h : ∀ kv ∈ kvs, keyMatches "digest" kv.1 = false) :
    decodeDescriptorFields m kvs = some m := by
  induction kvs with
  | nil => rfl
  | cons kv kvs ih =>
    obtain ⟨k, v⟩ := kv
    have hk := h (k, v) (List.mem_cons_self _ _)
    simp only at hk
    unfold decodeDescriptorFields
    rw [hk]
    simp only [Bool.false_eq_true, if_false]
    exact ih (fun kv hkv => h kv (List.mem_cons_of_mem _ hkv))

/-- C16 (counterexample): the manifest `[{}]` and the index
`{"manifests":[{}]}` are not parse errors.  The runs go on with the defaulted
fields, print `MISSING: config ""` and `UNEXPECTED digest format: ""`, and end
with exit code 0. -/
theorem missing_fields_are_not_parse_errors :
    runTar goJson ⟨[⟨"manifest.json".toList, "[\x7b\x7d]".toList⟩], .eof⟩ =
      { stdout := [dockerDetected, Line.entry 0 [] [], Line.missingConfig []],
        stderr := [], exitCode := 0 } ∧
    runTar goJson ⟨[⟨"index.json".toList, "\x7b\"manifests\":[\x7b\x7d]\x7d".toList⟩], .eof⟩ =
      { stdout := [ociDetected, Line.manifest 0 [], Line.unexpectedDigest []],
        stderr := [], exitCode := 0 } := by
  decide

/-- C16 (amended): the run fails with exit code 2 exactly when `json.Unmarshal`
rejects a captured buffer, and it rejects a buffer exactly when the bytes are
not JSON or a value that is present has a JSON type its Go field cannot take:
the manifest must be `null` or an array of entries, an entry `null` or an
object, `Config` a string or `null`, `RepoTags` and `Layers` `null` or arrays
of strings and nulls; the index must be `null` or an object, `manifests` `null`
or an array of descriptors, a descriptor `null` or an object, `digest` a string
or `null`.  A missing field is not an error: an object without the keys of an
entry (of a descriptor) leaves the entry (the descriptor) as it was, which for
a new element is the zero value (in a slice stored again under a repeated key
it can be an element left in the backing array), and the membership checks run
on the decoded values. -/
theorem shape_is_checked_by_type_only :
    (∀ buf : Str, unmarshalManifest buf = none ↔
      parseJson buf = none ∨ ∃ v, parseJson buf = some v ∧ manifestValueOk v = false) ∧
    (∀ buf : Str, unmarshalIndex buf = none ↔
      parseJson buf = none ∨ ∃ v, parseJson buf = some v ∧ indexValueOk v = false) ∧
    (∀ (kvs : List (Str × JVal)) (e : EntryState),
      (∀ kv ∈ kvs, keyMatches "Config" kv.1 = false ∧ keyMatches "RepoTags" kv.1 = false ∧
        keyMatches "Layers" kv.1 = false) →
      decodeEntryFields e kvs = some e ∧
      decodeEntry (.obj kvs) = some { Config := [], RepoTags := [], Layers := [] }) ∧
    (∀ (kvs : List (Str × JVal)) (m : ociManifest),
      (∀ kv ∈ kvs, keyMatches "digest" kv.1 = false) →
      decodeDescriptor m (.obj kvs) = some m) ∧
    (∀ (J : JsonDecoder) (st : ScanState) (manifest : List dockerManifestEntry),
      st.manifestBuf ≠ [] → J.unmarshalManifest st.manifestBuf = some manifest →
      dockerPhase J st = .done (dockerDetected :: dockerCheck st.found manifest)) ∧
    (∀ (J : JsonDecoder) (st : ScanState) (idx : ociIndex),
      st.indexBuf ≠ [] → J.unmarshalIndex st.indexBuf = some idx →
      ociPhase J st = .done (ociDetected :: ociCheck st.found idx)) ∧
    (∀ (J : JsonDecoder) (st : ScanState), st.manifestBuf ≠ [] →
      J.unmarshalManifest st.manifestBuf = none →
      report J st =
        { stdout := [dockerDetected], stderr := ["parse manifest.json:"], exitCode := 2 }) ∧
    (∀ (J : JsonDecoder) (st : ScanState), st.indexBuf ≠ [] →
      J.unmarshalIndex st.indexBuf = none →
      ociPhase J st = .fatal [ociDetected] "parse index.json:") ∧
    unmarshalManifest "[\x7b\x7d]".toList =
      some [{ Config := [], RepoTags := [], Layers := [] }] ∧
    unmarshalManifest "null".toList = some [] ∧
    unmarshalManifest "[null, \x7b\"Config\":null,\"Layers\":[null]\x7d]".toList =
      some [{ Config := [], RepoTags := [], Layers := [] },
            { Config := [], RepoTags := [], Layers := [[]] }] ∧
    unmarshalIndex "\x7b\"manifests\":[\x7b\x7d]\x7d".toList =
      some { Manifests := [{ Digest := [] }] } ∧
    unmarshalIndex "null".toList = some { Manifests := [] } ∧
    unmarshalManifest
        "[\x7b\"Layers\":[\"a\",\"b\"],\"Layers\":[\"a\"],\"Layers\":[\"a\",null]\x7d]".toList =
      some [{ Config := [], RepoTags := [], Layers := ["a".toList, "b".toList] }] ∧
    unmarshalIndex
        ("\x7b\"manifests\":[\x7b\"digest\":\"a:b\"\x7d,\x7b\"digest\":\"c:d\"\x7d]," ++
         "\"manifests\":[\x7b\"digest\":\"a:b\"\x7d]," ++
         "\"manifests\":[\x7b\"digest\":\"a:b\"\x7d,\x7b\x7d]\x7d").toList =
      some { Manifests := [{ Digest := "a:b".toList }, { Digest := "c:d".toList }] } ∧
    unmarshalManifest "[\x7b\"Config\":1\x7d]".toList = none ∧
    unmarshalManifest "\x7b\x7d".toList = none ∧
    unmarshalIndex "[]".toList = none ∧
    unmarshalManifest "[\x7b".toList = none := by
  refine ⟨?_, ?_, ?_, ?_, ?_, ?_, ?_, ?_, by decide, by decide, by decide, by decide,
    by decide, by decide, by decide, by decide, by decide, by decide, by decide⟩
  · intro buf
    exact bind_eq_none_iff_not_ok (parseJson buf) decodeManifest manifestValueOk
      decodeManifest_isSome
  · intro buf
    exact bind_eq_none_iff_not_ok (parseJson buf) decodeIndex indexValueOk decodeIndex_isSome
  · intro kvs e h
    refine ⟨decodeEntryFields_of_no_match kvs e h, ?_⟩
    have hz := decodeEntryFields_of_no_match kvs EntryState.zero h
    show Option.map EntryState.value (decodeEntryFields EntryState.zero kvs) = _
    rw [hz]
    rfl
  · intro kvs m h
    exact decodeDescriptorFields_of_no_match kvs m h
  · intro J st manifest hb hp
    exact dockerPhase_of_parsed J st manifest hb hp
  · intro J st idx hb hp
    unfold ociPhase
    rw [if_pos (List.length_pos.mpr hb), hp]
  · intro J st hb hp
    unfold report
    rw [dockerPhase_of_parse_error J st hb hp]
  · intro J st hb hp
    unfold ociPhase
    rw [if_pos (List.length_pos.mpr hb), hp]

theorem shape_is_checked_by_type_only_witness :
    decodeEntry (.obj [("comment".toList, JVal.str "x".toList)]) =
      some { Config := [], RepoTags := [], Layers := [] } :=
  (shape_is_checked_by_type_only.2.2.1 [("comment".toList, JVal.str "x".toList)]
    EntryState.zero (by decide)).2

end TarCheck
